import Mathlib

/-!
Shallow embedding of the ndcalc-core expression compiler and dual-evaluation
engine (src/ndcalc-core): tokenizer, recursive-descent parser, bytecode
compiler, stack-machine VM, forward-mode AD over dual numbers, the
finite-difference engine, and the C API's mode-dispatch layer.

Numeric idealization: the C++ code computes with IEEE doubles.  The embedding
idealizes doubles as exact rationals (ℚ): every arithmetic operation of the
source (`+ - * / unary-` and comparisons against `0.0`) is exact here.  The
real-valued library functions (std::sin, cos, tan, exp, log, sqrt) take
irrational values which ℚ cannot carry; the execution engines are therefore
parameterized by a `TransFuns` table supplying those functions, and every
structural theorem below is proved for an arbitrary table.  `std::pow` is
modelled exactly on integer exponents (the only case any value-level theorem
exercises).  Decimal literals such as `1e-8` are idealized as the exact
rationals they denote.
-/

namespace NDCalc

/-- Opcodes with their operand payloads (bytecode.h `OpCode` + `Instruction`;
the C-style union is modelled as a payload-carrying inductive keyed by
opcode). -/
inductive Instr where
  | pushConst (v : ℚ)
  | loadVar (idx : ℕ)
  | add
  | sub
  | mul
  | div
  | neg
  | pow
  | sin
  | cos
  | tan
  | exp
  | log
  | sqrt
  | abs
  | ret
deriving DecidableEq, Repr

/-- bytecode.h `BytecodeProgram`: instruction sequence plus declared variable
count (`num_variables_`, defaulting to 0 at construction). -/
structure BytecodeProgram where
  instructions : List Instr
  numVariables : ℕ
deriving DecidableEq, Repr

/-- The real-valued math library functions the interpreters call
(std::sin/cos/tan/exp/log/sqrt/pow).  Their exact values are irrational in
general, so they enter the ℚ-idealized model as parameters; structural
theorems hold for every table. -/
structure TransFuns where
  sin : ℚ → ℚ
  cos : ℚ → ℚ
  tan : ℚ → ℚ
  exp : ℚ → ℚ
  log : ℚ → ℚ
  sqrt : ℚ → ℚ
  pow : ℚ → ℚ → ℚ

/-- The evaluation-error kinds of vm.cpp / autodiff.cpp (`set_error` /
`error_message_` strings, keyed by kind). -/
inductive EvalError where
  | inputCountMismatch
  | varIndexOutOfBounds
  | stackUnderflow
  | divisionByZero
  | logNonPositive
  | sqrtNegative
  | invalidStackAtReturn
  | missingReturn
deriving DecidableEq, Repr

/-- One non-RETURN step of `VM::execute`'s switch (vm.cpp:24-176): the stack
effect and error checks of a single instruction.  The stack is a list with its
head as the top.  RETURN is handled by the driver loop `execGo` before this
function is consulted; its branch here mirrors "no stack effect" and is never
reached. -/
def stepInstr (F : TransFuns) (inputs : List ℚ) : Instr → List ℚ → Except EvalError (List ℚ)
  | .pushConst v, st => .ok (v :: st)
  | .loadVar idx, st =>
      if h : idx < inputs.length then .ok (inputs.get ⟨idx, h⟩ :: st)
      else .error .varIndexOutOfBounds
  | .add, b :: a :: st => .ok ((a + b) :: st)
  | .add, _ => .error .stackUnderflow
  | .sub, b :: a :: st => .ok ((a - b) :: st)
  | .sub, _ => .error .stackUnderflow
  | .mul, b :: a :: st => .ok ((a * b) :: st)
  | .mul, _ => .error .stackUnderflow
  | .div, b :: a :: st =>
      if b = 0 then .error .divisionByZero else .ok ((a / b) :: st)
  | .div, _ => .error .stackUnderflow
  | .neg, v :: st => .ok (-v :: st)
  | .neg, _ => .error .stackUnderflow
  | .pow, b :: a :: st => .ok (F.pow a b :: st)
  | .pow, _ => .error .stackUnderflow
  | .sin, v :: st => .ok (F.sin v :: st)
  | .sin, _ => .error .stackUnderflow
  | .cos, v :: st => .ok (F.cos v :: st)
  | .cos, _ => .error .stackUnderflow
  | .tan, v :: st => .ok (F.tan v :: st)
  | .tan, _ => .error .stackUnderflow
  | .exp, v :: st => .ok (F.exp v :: st)
  | .exp, _ => .error .stackUnderflow
  | .log, v :: st =>
      if v ≤ 0 then .error .logNonPositive else .ok (F.log v :: st)
  | .log, _ => .error .stackUnderflow
  | .sqrt, v :: st =>
      if v < 0 then .error .sqrtNegative else .ok (F.sqrt v :: st)
  | .sqrt, _ => .error .stackUnderflow
  | .abs, v :: st => .ok (|v| :: st)
  | .abs, _ => .error .stackUnderflow
  | .ret, st => .ok st

/-- The instruction loop of `VM::execute` (vm.cpp:23-190): RETURN demands a
stack of exactly one value and yields it; falling off the end is "missing
return". -/
def execGo (F : TransFuns) (inputs : List ℚ) : List Instr → List ℚ → Except EvalError ℚ
  | [], _ => .error .missingReturn
  | .ret :: _, st =>
      match st with
      | [v] => .ok v
      | _ => .error .invalidStackAtReturn
  | i :: rest, st =>
      match stepInstr F inputs i st with
      | .ok st' => execGo F inputs rest st'
      | .error e => .error e

/-- Models `VM::execute` (vm.cpp:11-191): input-count check, then the instruction
loop on an empty stack. -/
def execute (F : TransFuns) (program : BytecodeProgram) (inputs : List ℚ) : Except EvalError ℚ :=
  if inputs.length ≠ program.numVariables then .error .inputCountMismatch
  else execGo F inputs program.instructions []

/-- Inputs of point `i` gathered from the structure-of-arrays batch layout
(vm.cpp:208-211: `point_inputs[v] = input_arrays[v][i]`). -/
def gatherPoint (inputArrays : List (List ℚ)) (i : ℕ) : List ℚ :=
  inputArrays.map fun col => col.getD i 0

/-- The per-point loop of `VM::execute_batch` (vm.cpp:207-217): scalar
execution per point, aborting at the first failure. -/
def batchGo (F : TransFuns) (program : BytecodeProgram) (inputArrays : List (List ℚ)) :
    List ℕ → Except EvalError (List ℚ)
  | [] => .ok []
  | i :: rest =>
      match execute F program (gatherPoint inputArrays i) with
      | .error e => .error e
      | .ok v =>
          match batchGo F program inputArrays rest with
          | .error e => .error e
          | .ok vs => .ok (v :: vs)

/-- Models `VM::execute_batch` (vm.cpp:193-220): count check then the point loop. -/
def executeBatch (F : TransFuns) (program : BytecodeProgram) (inputArrays : List (List ℚ))
    (numPoints : ℕ) : Except EvalError (List ℚ) :=
  if inputArrays.length ≠ program.numVariables then .error .inputCountMismatch
  else batchGo F program inputArrays (List.range numPoints)

/-- autodiff.h `Dual`: a (value, derivative) pair. -/
structure Dual where
  value : ℚ
  derivative : ℚ
deriving DecidableEq, Repr

namespace Dual

/-- autodiff.h `Dual::operator+`. -/
instance : Add Dual :=
  ⟨fun x y => ⟨x.value + y.value, x.derivative + y.derivative⟩⟩

/-- autodiff.h `Dual::operator-`. -/
instance : Sub Dual :=
  ⟨fun x y => ⟨x.value - y.value, x.derivative - y.derivative⟩⟩

/-- autodiff.h `Dual::operator*`. -/
instance : Mul Dual :=
  ⟨fun x y => ⟨x.value * y.value, x.derivative * y.value + x.value * y.derivative⟩⟩

/-- autodiff.h `Dual::operator/`. -/
instance : Div Dual :=
  ⟨fun x y =>
    ⟨x.value / y.value,
     (x.derivative * y.value - x.value * y.derivative) / (y.value * y.value)⟩⟩

/-- autodiff.h unary `Dual::operator-`. -/
instance : Neg Dual :=
  ⟨fun x => ⟨-x.value, -x.derivative⟩⟩

end Dual

/-- autodiff.cpp `dual_sin`. -/
def dualSin (F : TransFuns) (x : Dual) : Dual :=
  ⟨F.sin x.value, x.derivative * F.cos x.value⟩

/-- autodiff.cpp `dual_cos`. -/
def dualCos (F : TransFuns) (x : Dual) : Dual :=
  ⟨F.cos x.value, -x.derivative * F.sin x.value⟩

/-- autodiff.cpp `dual_tan`. -/
def dualTan (F : TransFuns) (x : Dual) : Dual :=
  let t := F.tan x.value
  ⟨t, x.derivative * (1 + t * t)⟩

/-- autodiff.cpp `dual_exp`. -/
def dualExp (F : TransFuns) (x : Dual) : Dual :=
  let e := F.exp x.value
  ⟨e, x.derivative * e⟩

/-- autodiff.cpp `dual_log`. -/
def dualLog (F : TransFuns) (x : Dual) : Dual :=
  ⟨F.log x.value, x.derivative / x.value⟩

/-- autodiff.cpp `dual_sqrt`. -/
def dualSqrt (F : TransFuns) (x : Dual) : Dual :=
  let s := F.sqrt x.value
  ⟨s, x.derivative / (2 * s)⟩

/-- autodiff.cpp `dual_abs`. -/
def dualAbs (x : Dual) : Dual :=
  if x.value ≥ 0 then ⟨x.value, x.derivative⟩ else ⟨-x.value, -x.derivative⟩

/-- autodiff.cpp `dual_pow`: `d/dx[f^g] = f^g * (g' * ln f + g * f'/f)`. -/
def dualPow (F : TransFuns) (x y : Dual) : Dual :=
  let p := F.pow x.value y.value
  ⟨p, p * (y.derivative * F.log x.value + y.value * x.derivative / x.value)⟩

/-- One non-RETURN step of `AutoDiff::execute_dual`'s switch
(autodiff.cpp:66-219); identical control structure to the scalar VM, over
dual numbers.  RETURN is handled by the driver loop. -/
def stepDual (F : TransFuns) (inputs : List Dual) : Instr → List Dual → Except EvalError (List Dual)
  | .pushConst v, st => .ok (⟨v, 0⟩ :: st)
  | .loadVar idx, st =>
      if h : idx < inputs.length then .ok (inputs.get ⟨idx, h⟩ :: st)
      else .error .varIndexOutOfBounds
  | .add, b :: a :: st => .ok ((a + b) :: st)
  | .add, _ => .error .stackUnderflow
  | .sub, b :: a :: st => .ok ((a - b) :: st)
  | .sub, _ => .error .stackUnderflow
  | .mul, b :: a :: st => .ok ((a * b) :: st)
  | .mul, _ => .error .stackUnderflow
  | .div, b :: a :: st =>
      if b.value = 0 then .error .divisionByZero else .ok ((a / b) :: st)
  | .div, _ => .error .stackUnderflow
  | .neg, v :: st => .ok (-v :: st)
  | .neg, _ => .error .stackUnderflow
  | .pow, b :: a :: st => .ok (dualPow F a b :: st)
  | .pow, _ => .error .stackUnderflow
  | .sin, v :: st => .ok (dualSin F v :: st)
  | .sin, _ => .error .stackUnderflow
  | .cos, v :: st => .ok (dualCos F v :: st)
  | .cos, _ => .error .stackUnderflow
  | .tan, v :: st => .ok (dualTan F v :: st)
  | .tan, _ => .error .stackUnderflow
  | .exp, v :: st => .ok (dualExp F v :: st)
  | .exp, _ => .error .stackUnderflow
  | .log, v :: st =>
      if v.value ≤ 0 then .error .logNonPositive else .ok (dualLog F v :: st)
  | .log, _ => .error .stackUnderflow
  | .sqrt, v :: st =>
      if v.value < 0 then .error .sqrtNegative else .ok (dualSqrt F v :: st)
  | .sqrt, _ => .error .stackUnderflow
  | .abs, v :: st => .ok (dualAbs v :: st)
  | .abs, _ => .error .stackUnderflow
  | .ret, st => .ok st

/-- The instruction loop of `AutoDiff::execute_dual` (autodiff.cpp:55-234). -/
def execDualGo (F : TransFuns) (inputs : List Dual) :
    List Instr → List Dual → Except EvalError Dual
  | [], _ => .error .missingReturn
  | .ret :: _, st =>
      match st with
      | [v] => .ok v
      | _ => .error .invalidStackAtReturn
  | i :: rest, st =>
      match stepDual F inputs i st with
      | .ok st' => execDualGo F inputs rest st'
      | .error e => .error e

/-- Models `AutoDiff::execute_dual` (autodiff.cpp:55-234). -/
def executeDual (F : TransFuns) (program : BytecodeProgram) (inputs : List Dual) :
    Except EvalError Dual :=
  if inputs.length ≠ program.numVariables then .error .inputCountMismatch
  else execDualGo F inputs program.instructions []

/-- The dual seed for variable `i` (autodiff.cpp:252-253:
`dual_inputs[j] = Dual(inputs[j], (i == j) ? 1.0 : 0.0)`). -/
def seedInputs (inputs : List ℚ) (i : ℕ) : List Dual :=
  inputs.mapIdx fun j v => ⟨v, if i = j then 1 else 0⟩

/-- Models `AutoDiff::compute_gradient` (autodiff.cpp:236-265): one dual pass per
variable, seeding that variable's derivative to 1. -/
def computeGradient (F : TransFuns) (program : BytecodeProgram) (inputs : List ℚ) :
    Except EvalError (List ℚ) :=
  if inputs.length ≠ program.numVariables then .error .inputCountMismatch
  else
    (List.range inputs.length).mapM fun i => do
      let r ← executeDual F program (seedInputs inputs i)
      pure r.derivative

/-- The hard-coded Hessian perturbation step of `AutoDiff::compute_hessian`
(autodiff.cpp:285: `const double h = 1e-8`), independent of the configured FD
epsilon. -/
def hessianStep : ℚ := 1 / 100000000

/-- Models `AutoDiff::compute_hessian` (autodiff.cpp:267-309): base AD gradient once,
then one forward difference of AD gradients per input, each perturbed by the
fixed step `hessianStep`; row-major flat output. -/
def computeHessianAD (F : TransFuns) (program : BytecodeProgram) (inputs : List ℚ) :
    Except EvalError (List ℚ) :=
  if inputs.length ≠ program.numVariables then .error .inputCountMismatch
  else do
    let n := inputs.length
    let gradBase ← computeGradient F program inputs
    let rows ← (List.range n).mapM fun i => do
      let gradPerturbed ←
        computeGradient F program (inputs.set i (inputs.getD i 0 + hessianStep))
      pure ((List.range n).map fun j =>
        (gradPerturbed.getD j 0 - gradBase.getD j 0) / hessianStep)
    pure rows.flatten

/-- Models `FiniteDiff::compute_gradient` (finite_diff.cpp:9-51): central difference
per variable. -/
def fdGradient (F : TransFuns) (epsilon : ℚ) (program : BytecodeProgram) (inputs : List ℚ) :
    Except EvalError (List ℚ) :=
  if inputs.length ≠ program.numVariables then .error .inputCountMismatch
  else
    (List.range inputs.length).mapM fun i => do
      let fPlus ← execute F program (inputs.set i (inputs.getD i 0 + epsilon))
      let fMinus ← execute F program (inputs.set i (inputs.getD i 0 - epsilon))
      pure ((fPlus - fMinus) / (2 * epsilon))

/-- The inner (off-diagonal) loop body of `FiniteDiff::compute_hessian`
(finite_diff.cpp:94-117): the mixed-partial stencil for the unordered pair
`(i, j)`, written symmetrically into both entries of the row-major buffer. -/
def fdHessianPair (F : TransFuns) (epsilon : ℚ) (program : BytecodeProgram) (inputs : List ℚ)
    (fBase fIPlus : ℚ) (i : ℕ) (buffer : List ℚ) (j : ℕ) : Except EvalError (List ℚ) := do
  let n := inputs.length
  let fIJ ← execute F program
    ((inputs.set i (inputs.getD i 0 + epsilon)).set j (inputs.getD j 0 + epsilon))
  let fJPlus ← execute F program (inputs.set j (inputs.getD j 0 + epsilon))
  let hIJ := (fIJ - fIPlus - fJPlus + fBase) / (epsilon * epsilon)
  pure (((buffer.set (i * n + j) hIJ).set (j * n + i) hIJ))

/-- The outer loop body of `FiniteDiff::compute_hessian`
(finite_diff.cpp:75-118): the second-difference diagonal stencil for row `i`,
then the mixed-partial stencils for every `j > i`. -/
def fdHessianRow (F : TransFuns) (epsilon : ℚ) (program : BytecodeProgram) (inputs : List ℚ)
    (fBase : ℚ) (buffer : List ℚ) (i : ℕ) : Except EvalError (List ℚ) := do
  let n := inputs.length
  let fIPlus ← execute F program (inputs.set i (inputs.getD i 0 + epsilon))
  let fIMinus ← execute F program (inputs.set i (inputs.getD i 0 - epsilon))
  let buffer1 := buffer.set (i * n + i) ((fIPlus - 2 * fBase + fIMinus) / (epsilon * epsilon))
  ((List.range n).drop (i + 1)).foldlM
    (fdHessianPair F epsilon program inputs fBase fIPlus i) buffer1

/-- Models `FiniteDiff::compute_hessian` (finite_diff.cpp:53-121): base evaluation,
then the row loop writing into the row-major output buffer. -/
def fdHessian (F : TransFuns) (epsilon : ℚ) (program : BytecodeProgram) (inputs : List ℚ) :
    Except EvalError (List ℚ) :=
  if inputs.length ≠ program.numVariables then .error .inputCountMismatch
  else do
    let n := inputs.length
    let fBase ← execute F program inputs
    (List.range n).foldlM (fdHessianRow F epsilon program inputs fBase)
      (List.replicate (n * n) 0)

/-- api.h `ndcalc_ad_mode_t`. -/
inductive AdMode where
  | auto
  | forward
  | finiteDiff
deriving DecidableEq, Repr

/-- api.cpp `ndcalc_context_t`: the context-level configuration (the
`last_error` string is omitted; no claim observes it). -/
structure Context where
  adMode : AdMode
  fdEpsilon : ℚ
deriving DecidableEq, Repr

/-- api.cpp `ndcalc_context_t` constructor defaults
(`ad_mode(NDCALC_AD_MODE_AUTO), fd_epsilon(1e-8)`). -/
def contextCreate : Context := ⟨.auto, 1 / 100000000⟩

/-- api.cpp `ndcalc_program_t` as configured by `ndcalc_compile`: the bytecode
plus the ad-mode and FD epsilon snapshotted from the context at compile
time. -/
structure ProgramHandle where
  bytecode : BytecodeProgram
  adMode : AdMode
  fdEpsilon : ℚ
deriving DecidableEq, Repr

/-- api.cpp `ndcalc_set_ad_mode` (api.cpp:223-227): mutates the context
only. -/
def ndcalcSetAdMode (ctx : Context) (mode : AdMode) : Context :=
  { ctx with adMode := mode }

/-- api.cpp `ndcalc_set_fd_epsilon` (api.cpp:229-233): mutates the context
only. -/
def ndcalcSetFdEpsilon (ctx : Context) (epsilon : ℚ) : Context :=
  { ctx with fdEpsilon := epsilon }

/-- api.cpp `ndcalc_gradient` (api.cpp:135-176): dispatch on the program's
stored mode; success is `NDCALC_OK` with the gradient values, any failure
collapses to `NDCALC_ERROR_EVAL` (modelled as `none`). -/
def ndcalcGradient (F : TransFuns) (p : ProgramHandle) (inputs : List ℚ) : Option (List ℚ) :=
  match p.adMode with
  | .forward => (computeGradient F p.bytecode inputs).toOption
  | .finiteDiff => (fdGradient F p.fdEpsilon p.bytecode inputs).toOption
  | .auto =>
      match computeGradient F p.bytecode inputs with
      | .ok g => some g
      | .error _ => (fdGradient F p.fdEpsilon p.bytecode inputs).toOption

/-- api.cpp `ndcalc_hessian` (api.cpp:179-220): same dispatch for the
Hessian. -/
def ndcalcHessian (F : TransFuns) (p : ProgramHandle) (inputs : List ℚ) : Option (List ℚ) :=
  match p.adMode with
  | .forward => (computeHessianAD F p.bytecode inputs).toOption
  | .finiteDiff => (fdHessian F p.fdEpsilon p.bytecode inputs).toOption
  | .auto =>
      match computeHessianAD F p.bytecode inputs with
      | .ok h => some h
      | .error _ => (fdHessian F p.fdEpsilon p.bytecode inputs).toOption

/-! ## Tokenizer (parser.cpp:10-84)

The C++ front end recurses on the call stack; the embedding threads an
explicit fuel argument whose positivity is maintained by proofs carried in
the definitions, so that every function is structurally recursive and
concrete inputs evaluate inside the kernel.  The fuel and its accompanying
proof arguments never influence a result. -/

/-- parser.h `TokenType`. -/
inductive TokenType where
  | NUMBER
  | VARIABLE
  | OPERATOR
  | LPAREN
  | RPAREN
  | COMMA
  | FUNCTION
  | END
deriving DecidableEq, Repr

/-- parser.h `Token`. -/
structure Token where
  type : TokenType
  value : String
  position : ℕ
deriving DecidableEq, Repr

/-- C `isspace` in the default locale (parser.cpp:16). -/
def isSpaceChar (c : Char) : Bool :=
  c = ' ' || c = '\t' || c = '\n' || c = '\x0b' || c = '\x0c' || c = '\r'

/-- The number-scan continuation condition of parser.cpp:24-28 for positions
after the first character of the token (where `pos > start` always holds, so
the sign clause is active). -/
def numBodyChar (c : Char) : Bool :=
  c.isDigit || c = '.' || c = 'e' || c = 'E' || c = '+' || c = '-'

/-- The identifier-scan continuation condition of parser.cpp:37-38. -/
def identBodyChar (c : Char) : Bool :=
  c.isAlphanum || c = '_'

/-- The reserved function names of parser.cpp:44-46. -/
def reservedNames : List String :=
  ["sin", "cos", "tan", "exp", "log", "sqrt", "abs", "pow"]

/-- The scan loop of `Parser::tokenize` (parser.cpp:10-84).  Each pass
consumes at least one character, so the fuel never runs out. -/
def tokenizeGo (fuel : ℕ) (cs : List Char) (pos : ℕ) (hf : cs.length < fuel) :
    Option (List Token) :=
  match fuel, cs with
  | _ + 1, [] => some [⟨.END, "", pos⟩]
  | fuel + 1, c :: rest =>
    have hr : rest.length < fuel := by simp at hf; omega
    if isSpaceChar c then
      tokenizeGo fuel rest (pos + 1) hr
    else if c.isDigit || c = '.' then
      let body := rest.takeWhile numBodyChar
      have hb : (rest.dropWhile numBodyChar).length < fuel := by
        have := (List.dropWhile_sublist numBodyChar (l := rest)).length_le
        omega
      (tokenizeGo fuel (rest.dropWhile numBodyChar) (pos + 1 + body.length) hb).map
        (fun ts => ⟨.NUMBER, String.mk (c :: body), pos⟩ :: ts)
    else if c.isAlpha || c = '_' then
      let body := rest.takeWhile identBodyChar
      let name := String.mk (c :: body)
      let ty : TokenType := if name ∈ reservedNames then .FUNCTION else .VARIABLE
      have hb : (rest.dropWhile identBodyChar).length < fuel := by
        have := (List.dropWhile_sublist identBodyChar (l := rest)).length_le
        omega
      (tokenizeGo fuel (rest.dropWhile identBodyChar) (pos + 1 + body.length) hb).map
        (fun ts => ⟨ty, name, pos⟩ :: ts)
    else if c = '+' || c = '-' || c = '*' || c = '/' || c = '^' then
      (tokenizeGo fuel rest (pos + 1) hr).map
        (fun ts => ⟨.OPERATOR, String.mk [c], pos⟩ :: ts)
    else if c = '(' then
      (tokenizeGo fuel rest (pos + 1) hr).map (fun ts => ⟨.LPAREN, "(", pos⟩ :: ts)
    else if c = ')' then
      (tokenizeGo fuel rest (pos + 1) hr).map (fun ts => ⟨.RPAREN, ")", pos⟩ :: ts)
    else if c = ',' then
      (tokenizeGo fuel rest (pos + 1) hr).map (fun ts => ⟨.COMMA, ",", pos⟩ :: ts)
    else
      none

/-- Models `Parser::tokenize` (parser.cpp:10-84): `none` models the
unknown-character error path (which returns an empty token vector and makes
`parse` fail). -/
def tokenize (s : String) : Option (List Token) :=
  tokenizeGo (s.toList.length + 1) s.toList 0 (by omega)

/-! ## AST (parser.h) -/

/-- parser.h `ASTNodeType`. -/
inductive ASTNodeType where
  | NUMBER
  | VARIABLE
  | BINARY_OP
  | UNARY_OP
  | FUNCTION_CALL
deriving DecidableEq, Repr

/-- The `value` string of a C++ `ASTNode`.  A VARIABLE node stores
`std::to_string(index)`, which the compiler reads back with `std::stoull`;
since that round trip is the identity, the variable payload is carried as
the index itself. -/
inductive NodeVal where
  | text (s : String)
  | varIndex (n : ℕ)
deriving DecidableEq, Repr

/-- parser.h `ASTNode`: type tag, value and owned children. -/
inductive ASTNode where
  | node (ty : ASTNodeType) (val : NodeVal) (children : List ASTNode)

/-- Every VARIABLE node in the tree holds an index below `n`.  The parser
established this for `n` the number of caller-supplied variable names; the
invariant is carried in the parser's result type. -/
inductive AllVarsBelow (n : ℕ) : ASTNode → Prop where
  | node (ty : ASTNodeType) (v : NodeVal) (cs : List ASTNode)
      (hv : ∀ k, ty = .VARIABLE → v = .varIndex k → k < n)
      (hc : ∀ c ∈ cs, AllVarsBelow n c) :
      AllVarsBelow n (.node ty v cs)

theorem AllVarsBelow.mkNum (n : ℕ) (s : String) :
    AllVarsBelow n (.node .NUMBER (.text s) []) :=
  .node _ _ _ (fun _ h => by cases h) (by simp)

theorem AllVarsBelow.mkVar {n k : ℕ} (h : k < n) :
    AllVarsBelow n (.node .VARIABLE (.varIndex k) []) :=
  .node _ _ _ (fun k' _ hv => by cases hv; exact h) (by simp)

theorem AllVarsBelow.mkBin {n : ℕ} {l r : ASTNode} (s : String)
    (hl : AllVarsBelow n l) (hr : AllVarsBelow n r) :
    AllVarsBelow n (.node .BINARY_OP (.text s) [l, r]) :=
  .node _ _ _ (fun _ h => by cases h) (by
    intro c hc
    simp only [List.mem_cons, List.mem_singleton, List.not_mem_nil, or_false] at hc
    rcases hc with rfl | rfl
    · exact hl
    · exact hr)

theorem AllVarsBelow.mkUn {n : ℕ} {c : ASTNode} (s : String)
    (hc : AllVarsBelow n c) :
    AllVarsBelow n (.node .UNARY_OP (.text s) [c]) :=
  .node _ _ _ (fun _ h => by cases h) (by
    intro c' hc'
    simp only [List.mem_singleton] at hc'
    subst hc'
    exact hc)

theorem AllVarsBelow.mkCall {n : ℕ} {args : List ASTNode} (s : String)
    (h : ∀ c ∈ args, AllVarsBelow n c) :
    AllVarsBelow n (.node .FUNCTION_CALL (.text s) args) :=
  .node _ _ _ (fun _ hx => by cases hx) h

/-- The variable-name map of `Parser::parse` (parser.cpp:91-93):
`variable_indices_[variables[i]] = i` with ascending `i`, so on duplicate
names the later index wins. -/
def varIndexFrom (vars : List String) (base : ℕ) (s : String) : Option ℕ :=
  match vars with
  | [] => none
  | v :: rest =>
      match varIndexFrom rest (base + 1) s with
      | some k => some k
      | none => if v = s then some base else none

/-- Lookup in the variable-name map (parser.cpp:223). -/
def varIndexLookup (vars : List String) (s : String) : Option ℕ :=
  varIndexFrom vars 0 s

theorem varIndexFrom_lt {vars : List String} {base k : ℕ} {s : String}
    (h : varIndexFrom vars base s = some k) : k < base + vars.length := by
  induction vars generalizing base with
  | nil => simp [varIndexFrom] at h
  | cons v rest ih =>
      rw [varIndexFrom] at h
      rcases hrec : varIndexFrom rest (base + 1) s with _ | k'
      · rw [hrec] at h
        by_cases hv : v = s
        · simp [hv] at h
          simp [List.length_cons]
          omega
        · simp [hv] at h
      · rw [hrec] at h
        cases h
        have := ih hrec
        simp [List.length_cons]
        omega

theorem varIndexLookup_lt {vars : List String} {k : ℕ} {s : String}
    (h : varIndexLookup vars s = some k) : k < vars.length := by
  have := varIndexFrom_lt h
  omega

/-! ## Parser (parser.cpp:86-284)

Each rule returns the node built and the unconsumed suffix of the token
list.  Two invariants are carried in the result types: every rule consumes
at least one token on success (needed to bound the recursion), and every
VARIABLE node's index is below the variable count (parser.cpp:221-231
resolves names only against the caller's list). -/

/-- Successful result of `parse_expression` / `parse_term` / `parse_factor`
/ `parse_primary`. -/
structure POut (nv : ℕ) (toks : List Token) : Type where
  ast : ASTNode
  rest : List Token
  hr : rest.length < toks.length
  hv : AllVarsBelow nv ast

/-- Successful result of the left-associative operator loops
(parser.cpp:125-137 and 148-160), which may consume nothing. -/
structure LOut (nv : ℕ) (toks : List Token) : Type where
  ast : ASTNode
  rest : List Token
  hr : rest.length ≤ toks.length
  hv : AllVarsBelow nv ast

/-- Successful result of the function-argument loop (parser.cpp:248-261);
`rest` begins at the closing parenthesis the loop stopped on. -/
structure AOut (nv : ℕ) (toks : List Token) : Type where
  args : List ASTNode
  rest : List Token
  hr : rest.length < toks.length
  hv : ∀ c ∈ args, AllVarsBelow nv c

/-- Fuel bookkeeping: a call at depth `d + 1` stays under a decremented
fuel bound.  The measure is `(maxD - depth) * (T + 1) + toks.length` for `T`
the token count of the whole input. -/
theorem fuelDepth {maxD d T t t' fuel : ℕ} (hd : d < maxD) (ht' : t' ≤ T)
    (hm : (maxD - d) * (T + 1) + t < fuel + 1) :
    (maxD - (d + 1)) * (T + 1) + t' < fuel := by
  have h1 : (maxD - d) * (T + 1) = (maxD - (d + 1)) * (T + 1) + (T + 1) := by
    have h2 : maxD - d = (maxD - (d + 1)) + 1 := by omega
    rw [h2]; ring
  omega

/-- Fuel bookkeeping: a call at the same depth on strictly fewer tokens
stays under a decremented fuel bound. -/
theorem fuelToks {maxD d T t t' fuel : ℕ} (ht' : t' < t)
    (hm : (maxD - d) * (T + 1) + t < fuel + 1) :
    (maxD - d) * (T + 1) + t' < fuel := by omega

mutual

/-- Models `Parser::parse_expression` (parser.cpp:119-140): a term followed by the
left-associative `+`/`-` loop.  The depth check models `check_depth`
(parser.cpp:111-117). -/
def parse_expression (vars : List String) (maxD T : ℕ) (fuel depth : ℕ)
    (toks : List Token) (hT : toks.length ≤ T)
    (hm : (maxD - depth) * (T + 1) + toks.length < fuel) :
    Option (POut vars.length toks) :=
  match fuel, hm with
  | 0, hm => (Nat.not_lt_zero _ hm).elim
  | fuel + 1, hm =>
    if hd : maxD ≤ depth then none
    else
      match parse_term vars maxD T fuel (depth + 1) toks hT
          (fuelDepth (by omega) hT hm) with
      | none => none
      | some t =>
          match parse_expression_loop vars maxD T fuel depth (by omega) t.ast t.hv t.rest
              (by have := t.hr; omega) (fuelToks t.hr hm) with
          | none => none
          | some l => some ⟨l.ast, l.rest, by have h1 := t.hr; have h2 := l.hr; omega, l.hv⟩
termination_by structural fuel

/-- The `+`/`-` loop of `Parser::parse_expression` (parser.cpp:125-137). -/
def parse_expression_loop (vars : List String) (maxD T : ℕ) (fuel depth : ℕ)
    (hdlt : depth < maxD) (left : ASTNode) (hleft : AllVarsBelow vars.length left)
    (toks : List Token) (hT : toks.length ≤ T)
    (hm : (maxD - depth) * (T + 1) + toks.length < fuel) :
    Option (LOut vars.length toks) :=
  match fuel, hm with
  | 0, hm => (Nat.not_lt_zero _ hm).elim
  | fuel + 1, hm =>
    match toks, hT, hm with
    | [], _, _ => some ⟨left, [], by omega, hleft⟩
    | t :: rest, hT, hm =>
        if t.type = .OPERATOR ∧ (t.value = "+" ∨ t.value = "-") then
          match parse_term vars maxD T fuel (depth + 1) rest
              (by simp at hT; omega) (fuelDepth hdlt (by simp at hT; omega) hm) with
          | none => none
          | some r =>
              match parse_expression_loop vars maxD T fuel depth hdlt
                  (.node .BINARY_OP (.text t.value) [left, r.ast])
                  (AllVarsBelow.mkBin t.value hleft r.hv) r.rest
                  (by have := r.hr; simp at hT ⊢; omega)
                  (fuelToks (by have := r.hr; simp; omega) hm) with
              | none => none
              | some l2 =>
                  some ⟨l2.ast, l2.rest, by
                    have h1 := r.hr; have h2 := l2.hr; simp only [List.length_cons]; omega,
                    l2.hv⟩
        else some ⟨left, t :: rest, by omega, hleft⟩
termination_by structural fuel

/-- Models `Parser::parse_term` (parser.cpp:142-163): a factor followed by the
left-associative `*`/`/` loop. -/
def parse_term (vars : List String) (maxD T : ℕ) (fuel depth : ℕ)
    (toks : List Token) (hT : toks.length ≤ T)
    (hm : (maxD - depth) * (T + 1) + toks.length < fuel) :
    Option (POut vars.length toks) :=
  match fuel, hm with
  | 0, hm => (Nat.not_lt_zero _ hm).elim
  | fuel + 1, hm =>
    if hd : maxD ≤ depth then none
    else
      match parse_factor vars maxD T fuel (depth + 1) toks hT
          (fuelDepth (by omega) hT hm) with
      | none => none
      | some t =>
          match parse_term_loop vars maxD T fuel depth (by omega) t.ast t.hv t.rest
              (by have := t.hr; omega) (fuelToks t.hr hm) with
          | none => none
          | some l => some ⟨l.ast, l.rest, by have h1 := t.hr; have h2 := l.hr; omega, l.hv⟩
termination_by structural fuel

/-- The `*`/`/` loop of `Parser::parse_term` (parser.cpp:148-160). -/
def parse_term_loop (vars : List String) (maxD T : ℕ) (fuel depth : ℕ)
    (hdlt : depth < maxD) (left : ASTNode) (hleft : AllVarsBelow vars.length left)
    (toks : List Token) (hT : toks.length ≤ T)
    (hm : (maxD - depth) * (T + 1) + toks.length < fuel) :
    Option (LOut vars.length toks) :=
  match fuel, hm with
  | 0, hm => (Nat.not_lt_zero _ hm).elim
  | fuel + 1, hm =>
    match toks, hT, hm with
    | [], _, _ => some ⟨left, [], by omega, hleft⟩
    | t :: rest, hT, hm =>
        if t.type = .OPERATOR ∧ (t.value = "*" ∨ t.value = "/") then
          match parse_factor vars maxD T fuel (depth + 1) rest
              (by simp at hT; omega) (fuelDepth hdlt (by simp at hT; omega) hm) with
          | none => none
          | some r =>
              match parse_term_loop vars maxD T fuel depth hdlt
                  (.node .BINARY_OP (.text t.value) [left, r.ast])
                  (AllVarsBelow.mkBin t.value hleft r.hv) r.rest
                  (by have := r.hr; simp at hT ⊢; omega)
                  (fuelToks (by have := r.hr; simp; omega) hm) with
              | none => none
              | some l2 =>
                  some ⟨l2.ast, l2.rest, by
                    have h1 := r.hr; have h2 := l2.hr; simp only [List.length_cons]; omega,
                    l2.hv⟩
        else some ⟨left, t :: rest, by omega, hleft⟩
termination_by structural fuel

/-- Models `Parser::parse_factor` (parser.cpp:165-186): a primary optionally
followed by `^` and a recursive factor (right-associativity). -/
def parse_factor (vars : List String) (maxD T : ℕ) (fuel depth : ℕ)
    (toks : List Token) (hT : toks.length ≤ T)
    (hm : (maxD - depth) * (T + 1) + toks.length < fuel) :
    Option (POut vars.length toks) :=
  match fuel, hm with
  | 0, hm => (Nat.not_lt_zero _ hm).elim
  | fuel + 1, hm =>
    if hd : maxD ≤ depth then none
    else
      match parse_primary vars maxD T fuel (depth + 1) toks hT
          (fuelDepth (by omega) hT hm) with
      | none => none
      | some l =>
          match l with
          | ⟨last, t :: rest2, hr, hv⟩ =>
              if t.type = .OPERATOR ∧ t.value = "^" then
                match parse_factor vars maxD T fuel (depth + 1) rest2
                    (by simp at hr; omega)
                    (fuelDepth (by omega) (by simp at hr; omega) hm) with
                | none => none
                | some r =>
                    some ⟨.node .BINARY_OP (.text "^") [last, r.ast], r.rest, by
                      have h1 := r.hr; simp only [List.length_cons] at hr; omega,
                      AllVarsBelow.mkBin "^" hv r.hv⟩
              else some ⟨last, t :: rest2, hr, hv⟩
          | ⟨last, [], hr, hv⟩ => some ⟨last, [], hr, hv⟩
termination_by structural fuel

/-- Models `Parser::parse_primary` (parser.cpp:188-284): unary minus/plus, number,
variable (resolved against the caller's names), function call, or
parenthesized expression. -/
def parse_primary (vars : List String) (maxD T : ℕ) (fuel depth : ℕ)
    (toks : List Token) (hT : toks.length ≤ T)
    (hm : (maxD - depth) * (T + 1) + toks.length < fuel) :
    Option (POut vars.length toks) :=
  match fuel, hm with
  | 0, hm => (Nat.not_lt_zero _ hm).elim
  | fuel + 1, hm =>
    if hd : maxD ≤ depth then none
    else
      match toks, hT, hm with
      | [], _, _ => none
      | t :: rest, hT, hm =>
          if t.type = .OPERATOR ∧ t.value = "-" then
            match parse_primary vars maxD T fuel (depth + 1) rest
                (by simp at hT; omega) (fuelDepth (by omega) (by simp at hT; omega) hm) with
            | none => none
            | some r =>
                some ⟨.node .UNARY_OP (.text "-") [r.ast], r.rest, by
                  have h1 := r.hr; simp only [List.length_cons]; omega,
                  AllVarsBelow.mkUn "-" r.hv⟩
          else if t.type = .OPERATOR ∧ t.value = "+" then
            match parse_primary vars maxD T fuel (depth + 1) rest
                (by simp at hT; omega) (fuelDepth (by omega) (by simp at hT; omega) hm) with
            | none => none
            | some r =>
                some ⟨r.ast, r.rest, by
                  have h1 := r.hr; simp only [List.length_cons]; omega, r.hv⟩
          else if t.type = .NUMBER then
            some ⟨.node .NUMBER (.text t.value) [], rest, by simp, AllVarsBelow.mkNum _ _⟩
          else if t.type = .VARIABLE then
            match hk : varIndexLookup vars t.value with
            | none => none
            | some k =>
                some ⟨.node .VARIABLE (.varIndex k) [], rest, by simp,
                  AllVarsBelow.mkVar (varIndexLookup_lt hk)⟩
          else if t.type = .FUNCTION then
            match rest with
            | [] => none
            | lp :: rest2 =>
                if lp.type = .LPAREN then
                  match rest2 with
                  | [] => none
                  | rp :: rest3 =>
                      if rp.type = .RPAREN then
                        some ⟨.node .FUNCTION_CALL (.text t.value) [], rest3, by
                          simp only [List.length_cons]; omega,
                          AllVarsBelow.mkCall _ (by simp)⟩
                      else
                        match parse_args_loop vars maxD T fuel depth (by omega) (rp :: rest3)
                            (by simp only [List.length_cons] at hT ⊢; omega)
                            (fuelToks (by simp only [List.length_cons]; omega) hm) with
                        | none => none
                        | some a =>
                            some ⟨.node .FUNCTION_CALL (.text t.value) a.args, a.rest.drop 1, by
                              have h1 := a.hr
                              have h2 := List.length_drop 1 a.rest
                              simp only [List.length_cons] at h1 ⊢
                              omega,
                              AllVarsBelow.mkCall _ a.hv⟩
                else none
          else if t.type = .LPAREN then
            match parse_expression vars maxD T fuel (depth + 1) rest
                (by simp at hT; omega) (fuelDepth (by omega) (by simp at hT; omega) hm) with
            | none => none
            | some e =>
                match e with
                | ⟨east, rp :: rest3, hr, hv⟩ =>
                    if rp.type = .RPAREN then
                      some ⟨east, rest3, by
                        simp only [List.length_cons] at hr ⊢; omega, hv⟩
                    else none
                | ⟨_, [], _, _⟩ => none
          else none
termination_by structural fuel

/-- The argument loop of `Parser::parse_primary` (parser.cpp:248-261): one
expression per iteration, continuing over commas, stopping at the closing
parenthesis (left for the caller to consume, as `++pos` does). -/
def parse_args_loop (vars : List String) (maxD T : ℕ) (fuel depth : ℕ)
    (hdlt : depth < maxD) (toks : List Token) (hT : toks.length ≤ T)
    (hm : (maxD - depth) * (T + 1) + toks.length < fuel) :
    Option (AOut vars.length toks) :=
  match fuel, hm with
  | 0, hm => (Nat.not_lt_zero _ hm).elim
  | fuel + 1, hm =>
    match parse_expression vars maxD T fuel (depth + 1) toks hT
        (fuelDepth hdlt hT hm) with
    | none => none
    | some e =>
        match e with
        | ⟨east, t2 :: rest2, hr, hv⟩ =>
            if t2.type = .RPAREN then
              some ⟨[east], t2 :: rest2, hr, by
                intro c hc; simp only [List.mem_singleton] at hc; subst hc; exact hv⟩
            else if t2.type = .COMMA then
              match parse_args_loop vars maxD T fuel depth hdlt rest2
                  (by simp only [List.length_cons] at hr; omega)
                  (fuelToks (by simp only [List.length_cons] at hr; omega) hm) with
              | none => none
              | some a2 =>
                  some ⟨east :: a2.args, a2.rest, by
                    have h1 := a2.hr; simp only [List.length_cons] at hr; omega,
                    by
                      intro c hc
                      simp only [List.mem_cons] at hc
                      rcases hc with rfl | hc
                      · exact hv
                      · exact a2.hv c hc⟩
            else none
        | ⟨_, [], _, _⟩ => none
termination_by structural fuel

end

/-- Models `Parser::parse` (parser.cpp:86-109) with the default `max_depth_` of
100: tokenize, parse an expression from depth 0, and require the next token
to be the end marker. -/
def parse (expression : String) (variableNames : List String) : Option ASTNode :=
  match tokenize expression with
  | none => none
  | some toks =>
      match parse_expression variableNames 100 toks.length
          (100 * (toks.length + 1) + toks.length + 1) 0 toks (by omega) (by omega) with
      | none => none
      | some p =>
          match p.rest with
          | t :: _ => if t.type = .END then some p.ast else none
          | [] => none

/-! ## Compiler (compiler.cpp) -/

/-- The value of a digit run, as `strtod`/`stoull` accumulate it. -/
def digitsToNat (ds : List Char) : ℕ :=
  ds.foldl (fun a c => 10 * a + (c.toNat - '0'.toNat)) 0

/-- Models `std::stod` (compiler.cpp:27) on the decimal grammar: optional
sign, digits with an optional fraction part, and an exponent part that is
consumed only when well formed (longest valid prefix; trailing characters
are ignored, no-conversion throws become `none`).  The exact rational is
returned instead of the nearest double.  Hex/inf/nan forms are unreachable:
number tokens start with a digit or `'.'` and contain only
digits/`.`/`e`/`E`/`+`/`-`. -/
def stod (s : String) : Option ℚ :=
  let cs := s.toList
  let signSplit : ℚ × List Char :=
    match cs with
    | '+' :: r => (1, r)
    | '-' :: r => (-1, r)
    | _ => (1, cs)
  let cs1 := signSplit.2
  let ip := cs1.takeWhile Char.isDigit
  let cs2 := cs1.dropWhile Char.isDigit
  let fracSplit : List Char × List Char :=
    match cs2 with
    | '.' :: r => (r.takeWhile Char.isDigit, r.dropWhile Char.isDigit)
    | _ => ([], cs2)
  let fp := fracSplit.1
  if ip.isEmpty && fp.isEmpty then none
  else
    let mantissa : ℚ := (digitsToNat (ip ++ fp) : ℚ) / (10 : ℚ) ^ fp.length
    let expo : ℤ :=
      match fracSplit.2 with
      | e :: r =>
          if e = 'e' ∨ e = 'E' then
            let esSplit : ℤ × List Char :=
              match r with
              | '+' :: r2 => (1, r2)
              | '-' :: r2 => (-1, r2)
              | _ => (1, r)
            let ed := esSplit.2.takeWhile Char.isDigit
            if ed.isEmpty then 0 else esSplit.1 * digitsToNat ed
          else 0
      | [] => 0
    some (signSplit.1 * mantissa * (10 : ℚ) ^ expo)

/-- Models `Compiler::compile_node` (compiler.cpp:24-135): post-order emission; the
returned list is what the node appends to the program.  Exceptions become
`Except.error` (caught in `Compiler::compile`). -/
def compileNode : ASTNode → Except String (List Instr)
  | .node .NUMBER (.text s) _ =>
      match stod s with
      | some q => .ok [.pushConst q]
      | none => .error "stod"
  | .node .NUMBER (.varIndex n) _ => .ok [.pushConst (n : ℚ)]
  | .node .VARIABLE (.varIndex n) _ => .ok [.loadVar n]
  | .node .VARIABLE (.text _) _ => .error "stoul"
  | .node .BINARY_OP v [l, r] => do
      let cl ← compileNode l
      let cr ← compileNode r
      match v with
      | .text "+" => .ok (cl ++ cr ++ [.add])
      | .text "-" => .ok (cl ++ cr ++ [.sub])
      | .text "*" => .ok (cl ++ cr ++ [.mul])
      | .text "/" => .ok (cl ++ cr ++ [.div])
      | .text "^" => .ok (cl ++ cr ++ [.pow])
      | _ => .error "Unknown binary operator"
  | .node .BINARY_OP _ _ => .error "Binary operation requires exactly 2 operands"
  | .node .UNARY_OP v [c] => do
      let cc ← compileNode c
      match v with
      | .text "-" => .ok (cc ++ [.neg])
      | _ => .error "Unknown unary operator"
  | .node .UNARY_OP _ _ => .error "Unary operation requires exactly 1 operand"
  | .node .FUNCTION_CALL (.text "sin") [a] => do
      let ca ← compileNode a
      .ok (ca ++ [.sin])
  | .node .FUNCTION_CALL (.text "sin") _ => .error "sin() requires exactly 1 argument"
  | .node .FUNCTION_CALL (.text "cos") [a] => do
      let ca ← compileNode a
      .ok (ca ++ [.cos])
  | .node .FUNCTION_CALL (.text "cos") _ => .error "cos() requires exactly 1 argument"
  | .node .FUNCTION_CALL (.text "tan") [a] => do
      let ca ← compileNode a
      .ok (ca ++ [.tan])
  | .node .FUNCTION_CALL (.text "tan") _ => .error "tan() requires exactly 1 argument"
  | .node .FUNCTION_CALL (.text "exp") [a] => do
      let ca ← compileNode a
      .ok (ca ++ [.exp])
  | .node .FUNCTION_CALL (.text "exp") _ => .error "exp() requires exactly 1 argument"
  | .node .FUNCTION_CALL (.text "log") [a] => do
      let ca ← compileNode a
      .ok (ca ++ [.log])
  | .node .FUNCTION_CALL (.text "log") _ => .error "log() requires exactly 1 argument"
  | .node .FUNCTION_CALL (.text "sqrt") [a] => do
      let ca ← compileNode a
      .ok (ca ++ [.sqrt])
  | .node .FUNCTION_CALL (.text "sqrt") _ => .error "sqrt() requires exactly 1 argument"
  | .node .FUNCTION_CALL (.text "abs") [a] => do
      let ca ← compileNode a
      .ok (ca ++ [.abs])
  | .node .FUNCTION_CALL (.text "abs") _ => .error "abs() requires exactly 1 argument"
  | .node .FUNCTION_CALL (.text "pow") [a, b] => do
      let ca ← compileNode a
      let cb ← compileNode b
      .ok (ca ++ cb ++ [.pow])
  | .node .FUNCTION_CALL (.text "pow") _ => .error "pow() requires exactly 2 arguments"
  | .node .FUNCTION_CALL _ _ => .error "Unknown function"

/-- Models `Compiler::compile` (compiler.cpp:8-22): compile the tree, append the
trailing RETURN; `num_variables_` is 0 until the API sets it. -/
def compile (ast : ASTNode) : Except String BytecodeProgram :=
  match compileNode ast with
  | .ok code => .ok ⟨code ++ [.ret], 0⟩
  | .error e => .error e

/-- Models `ndcalc_compile` (api.cpp:41-90): parse against the caller's variable
names, compile, declare the variable count, and snapshot the context's mode
and epsilon into the new program.  `none` models the `NDCALC_ERROR_PARSE` /
`NDCALC_ERROR_INVALID_EXPR` returns. -/
def ndcalcCompile (ctx : Context) (expression : String) (variableNames : List String) :
    Option ProgramHandle :=
  match parse expression variableNames with
  | none => none
  | some ast =>
      match compile ast with
      | .error _ => none
      | .ok bc =>
          some ⟨{ bc with numVariables := variableNames.length }, ctx.adMode, ctx.fdEpsilon⟩

/-- Models `ndcalc_eval` (api.cpp:97-112): scalar VM execution; failures collapse
to `NDCALC_ERROR_EVAL` (modelled as `none`). -/
def ndcalcEval (F : TransFuns) (p : ProgramHandle) (inputs : List ℚ) : Option ℚ :=
  (execute F p.bytecode inputs).toOption

/-- Models `std::pow` in the exact-rational idealization: an integer
exponent gives the exact power; a non-integer exponent generally has an
irrational value, which ℚ cannot carry — that case returns 0 and no theorem
in this file depends on it. -/
def stdPow (a b : ℚ) : ℚ := if b.den = 1 then a ^ b.num else 0

/-- A concrete function table used to evaluate theorems at specific inputs:
`pow` is `stdPow`; the sin/cos/tan/exp/log/sqrt slots (whose true values
are irrational) are arbitrary constants, and no theorem below depends on
them — the structural theorems hold for every `TransFuns`. -/
def ratFuns : TransFuns :=
  { sin := fun _ => 0, cos := fun _ => 0, tan := fun _ => 0,
    exp := fun _ => 0, log := fun _ => 0, sqrt := fun _ => 0, pow := stdPow }

/-! ## Theorems -/

/-- C6: scalar evaluation's value-dependent error branches are exactly the
three domain checks of vm.cpp: a DIV step fails with `divisionByZero`
precisely when the popped divisor (the stack top) is exactly zero
(vm.cpp:79-82), a LOG step fails with `logNonPositive` precisely when its
operand is ≤ 0 (vm.cpp:148-151), a SQRT step fails with `sqrtNegative`
precisely when its operand is < 0 (vm.cpp:161-164); every other error a step
can produce is structural (stack underflow or variable-index bound), and a
POW step with two operands never fails — no overflow, NaN or negative-base
condition is checked. -/
theorem domain_error_conditions (F : TransFuns) (inputs : List ℚ) (st : List ℚ) :
    (∀ b a rest, st = b :: a :: rest →
      ((stepInstr F inputs .div st = .error .divisionByZero) ↔ b = 0)) ∧
    (∀ v rest, st = v :: rest →
      ((stepInstr F inputs .log st = .error .logNonPositive) ↔ v ≤ 0)) ∧
    (∀ v rest, st = v :: rest →
      ((stepInstr F inputs .sqrt st = .error .sqrtNegative) ↔ v < 0)) ∧
    (∀ inst e, stepInstr F inputs inst st = .error e →
      e = .divisionByZero ∨ e = .logNonPositive ∨ e = .sqrtNegative ∨
      e = .stackUnderflow ∨ e = .varIndexOutOfBounds) ∧
    (∀ b a rest, st = b :: a :: rest → ∀ e, stepInstr F inputs .pow st ≠ .error e) := by
  refine ⟨?_, ?_, ?_, ?_, ?_⟩
  · intro b a rest hst
    subst hst
    by_cases hb : b = 0 <;> simp [stepInstr, hb]
  · intro v rest hst
    subst hst
    by_cases hv : v ≤ 0 <;> simp [stepInstr, hv]
  · intro v rest hst
    subst hst
    by_cases hv : v < 0 <;> simp [stepInstr, hv]
  · intro inst e h
    cases inst <;>
      rcases st with _ | ⟨b, _ | ⟨a, rest⟩⟩ <;>
      simp only [stepInstr] at h <;>
      first
        | (cases h)
        | (split at h <;> simp_all)
        | simp_all
    all_goals tauto
  · intro b a rest hst e
    subst hst
    simp [stepInstr]

/-- Witness for C6 at concrete inputs. -/
theorem domain_error_conditions_witness :
    stepInstr ratFuns [] Instr.div [0, 1] = .error .divisionByZero ∧
    stepInstr ratFuns [] Instr.pow [-2, 2] ≠ .error .divisionByZero := by
  constructor
  · exact ((domain_error_conditions ratFuns [] [0, 1]).1 0 1 [] rfl).mpr rfl
  · exact (domain_error_conditions ratFuns [] [-2, 2]).2.2.2.2 (-2) 2 [] rfl .divisionByZero

/-- C4: the gradient and Hessian entry points dispatch on the program's
stored mode (api.cpp:146-175 and 190-219).  In FORWARD mode the result is
exactly the AD engine's outcome (an AD failure is returned, no FD runs); in
FINITE_DIFF mode exactly the FD engine's outcome; in AUTO mode an AD success
is returned as is, and on any AD failure the result is exactly the FD
engine's outcome (its value on success, failure if FD also fails). -/
theorem gradient_hessian_mode_dispatch (F : TransFuns) (p : ProgramHandle)
    (inputs : List ℚ) :
    (p.adMode = .forward →
      ndcalcGradient F p inputs = (computeGradient F p.bytecode inputs).toOption ∧
      ndcalcHessian F p inputs = (computeHessianAD F p.bytecode inputs).toOption) ∧
    (p.adMode = .finiteDiff →
      ndcalcGradient F p inputs = (fdGradient F p.fdEpsilon p.bytecode inputs).toOption ∧
      ndcalcHessian F p inputs = (fdHessian F p.fdEpsilon p.bytecode inputs).toOption) ∧
    (p.adMode = .auto →
      (∀ g, computeGradient F p.bytecode inputs = .ok g →
        ndcalcGradient F p inputs = some g) ∧
      (∀ e, computeGradient F p.bytecode inputs = .error e →
        ndcalcGradient F p inputs = (fdGradient F p.fdEpsilon p.bytecode inputs).toOption) ∧
      (∀ h, computeHessianAD F p.bytecode inputs = .ok h →
        ndcalcHessian F p inputs = some h) ∧
      (∀ e, computeHessianAD F p.bytecode inputs = .error e →
        ndcalcHessian F p inputs = (fdHessian F p.fdEpsilon p.bytecode inputs).toOption)) := by
  refine ⟨?_, ?_, ?_⟩
  · intro hm
    constructor <;> simp [ndcalcGradient, ndcalcHessian, hm]
  · intro hm
    constructor <;> simp [ndcalcGradient, ndcalcHessian, hm]
  · intro hm
    refine ⟨?_, ?_, ?_, ?_⟩
    · intro g hg
      simp [ndcalcGradient, hm, hg]
    · intro e he
      simp [ndcalcGradient, hm, he]
    · intro h hh
      simp [ndcalcHessian, hm, hh]
    · intro e he
      simp [ndcalcHessian, hm, he]

/-- Witness for C4: a zero-variable constant program in FORWARD mode. -/
theorem gradient_hessian_mode_dispatch_witness :
    ndcalcGradient ratFuns ⟨⟨[.pushConst 1, .ret], 0⟩, .forward, 1⟩ [] =
      (computeGradient ratFuns ⟨[.pushConst 1, .ret], 0⟩ []).toOption :=
  ((gradient_hessian_mode_dispatch ratFuns ⟨⟨[.pushConst 1, .ret], 0⟩, .forward, 1⟩ []).1
    rfl).1

theorem batchGo_ok_iff (F : TransFuns) (program : BytecodeProgram)
    (inputArrays : List (List ℚ)) (l : List ℕ) (outs : List ℚ) :
    batchGo F program inputArrays l = .ok outs ↔
      (outs.length = l.length ∧
        ∀ k, (hk : k < l.length) →
          execute F program (gatherPoint inputArrays (l.get ⟨k, hk⟩)) =
            .ok (outs.getD k 0)) := by
  induction l generalizing outs with
  | nil =>
      cases outs with
      | nil => simp [batchGo]
      | cons v vs => simp [batchGo]
  | cons i rest ih =>
      rw [batchGo]
      rcases hex : execute F program (gatherPoint inputArrays i) with e | v
      · constructor
        · intro h
          cases h
        · rintro ⟨hlen, hall⟩
          have h0 := hall 0 (by simp)
          simp at h0
          rw [hex] at h0
          cases h0
      · rcases hgo : batchGo F program inputArrays rest with e | vs
        · constructor
          · intro h
            cases h
          · rintro ⟨hlen, hall⟩
            rcases outs with _ | ⟨v0, outs'⟩
            · simp at hlen
            · have hrest : batchGo F program inputArrays rest = .ok outs' := by
                rw [ih]
                refine ⟨by simpa using hlen, ?_⟩
                intro k hk
                have := hall (k + 1) (by simp; omega)
                simpa using this
              rw [hgo] at hrest
              cases hrest
        · constructor
          · intro h
            cases h
            have hrest := (ih vs).mp hgo
            refine ⟨by simp [hrest.1], ?_⟩
            intro k hk
            cases k with
            | zero => simpa using hex
            | succ k' =>
                have := hrest.2 k' (by simpa using hk)
                simpa using this
          · rintro ⟨hlen, hall⟩
            rcases outs with _ | ⟨v0, outs'⟩
            · simp at hlen
            · have h0 := hall 0 (by simp)
              simp at h0
              rw [hex] at h0
              have hv0 : v = v0 := by
                simpa using h0
              have hrest : batchGo F program inputArrays rest = .ok outs' := by
                rw [ih]
                refine ⟨by simpa using hlen, ?_⟩
                intro k hk
                have := hall (k + 1) (by simp; omega)
                simpa using this
              rw [hgo] at hrest
              cases hrest
              simp [hv0]

theorem batchGo_error_iff (F : TransFuns) (program : BytecodeProgram)
    (inputArrays : List (List ℚ)) (l : List ℕ) (e : EvalError) :
    batchGo F program inputArrays l = .error e ↔
      ∃ k, ∃ (hk : k < l.length),
        execute F program (gatherPoint inputArrays (l.get ⟨k, hk⟩)) = .error e ∧
        ∀ j, (hj : j < k) →
          ∃ v, execute F program (gatherPoint inputArrays (l.get ⟨j, by omega⟩)) = .ok v := by
  induction l with
  | nil => simp [batchGo]
  | cons i rest ih =>
      rw [batchGo]
      rcases hex : execute F program (gatherPoint inputArrays i) with e' | v
      · constructor
        · intro h
          cases h
          exact ⟨0, by simp, by simpa using hex, by omega⟩
        · rintro ⟨k, hk, hfail, hpre⟩
          cases k with
          | zero =>
              simp at hfail
              rw [hex] at hfail
              cases hfail
              rfl
          | succ k' =>
              have := hpre 0 (by omega)
              rcases this with ⟨v, hv⟩
              simp at hv
              rw [hex] at hv
              cases hv
      · rcases hgo : batchGo F program inputArrays rest with e' | vs
        · constructor
          · intro h
            cases h
            rcases ih.mp hgo with ⟨k, hk, hfail, hpre⟩
            refine ⟨k + 1, by simpa using hk, by simpa using hfail, ?_⟩
            intro j hj
            cases j with
            | zero => exact ⟨v, by simpa using hex⟩
            | succ j' =>
                have := hpre j' (by omega)
                simpa using this
          · rintro ⟨k, hk, hfail, hpre⟩
            cases k with
            | zero =>
                simp at hfail
                rw [hex] at hfail
                cases hfail
            | succ k' =>
                have hr : batchGo F program inputArrays rest = .error e := by
                  rw [ih]
                  refine ⟨k', by simpa using hk, by simpa using hfail, ?_⟩
                  intro j hj
                  have := hpre (j + 1) (by omega)
                  simpa using this
                rw [hgo] at hr
                cases hr
                rfl
        · constructor
          · intro h
            cases h
          · rintro ⟨k, hk, hfail, hpre⟩
            cases k with
            | zero =>
                simp at hfail
                rw [hex] at hfail
                cases hfail
            | succ k' =>
                have hr : batchGo F program inputArrays rest = .error e := by
                  rw [ih]
                  refine ⟨k', by simpa using hk, by simpa using hfail, ?_⟩
                  intro j hj
                  have := hpre (j + 1) (by omega)
                  simpa using this
                rw [hgo] at hr
                cases hr

/-- C8: batch evaluation over `N` structure-of-arrays points agrees
pointwise with scalar evaluation: it succeeds exactly when every point's
scalar execution succeeds, returning exactly those per-point results in
order, and it fails exactly with the error of the first failing point (all
earlier points having succeeded), after the same input-count check scalar
execution performs (vm.cpp:193-220). -/
theorem batch_matches_scalar_eval (F : TransFuns) (program : BytecodeProgram)
    (inputArrays : List (List ℚ)) (numPoints : ℕ)
    (hcols : ∀ col ∈ inputArrays, col.length = numPoints) :
    (∀ outs, executeBatch F program inputArrays numPoints = .ok outs ↔
      (inputArrays.length = program.numVariables ∧ outs.length = numPoints ∧
        ∀ i, i < numPoints →
          execute F program (gatherPoint inputArrays i) = .ok (outs.getD i 0))) ∧
    (∀ e, executeBatch F program inputArrays numPoints = .error e ↔
      ((inputArrays.length ≠ program.numVariables ∧ e = .inputCountMismatch) ∨
       (inputArrays.length = program.numVariables ∧
        ∃ i, i < numPoints ∧ execute F program (gatherPoint inputArrays i) = .error e ∧
          ∀ j, j < i → ∃ v, execute F program (gatherPoint inputArrays j) = .ok v))) := by
  constructor
  · intro outs
    unfold executeBatch
    by_cases hmis : inputArrays.length = program.numVariables
    · rw [if_neg (by simp [hmis])]
      rw [batchGo_ok_iff]
      constructor
      · rintro ⟨hlen, hall⟩
        refine ⟨hmis, by simpa using hlen, ?_⟩
        intro i hi
        have := hall i (by simpa using hi)
        simpa using this
      · rintro ⟨_, hlen, hall⟩
        refine ⟨by simpa using hlen, ?_⟩
        intro k hk
        have := hall k (by simpa using hk)
        simpa using this
    · rw [if_pos (by simp [hmis])]
      simp [hmis]
  · intro e
    unfold executeBatch
    by_cases hmis : inputArrays.length = program.numVariables
    · rw [if_neg (by simp [hmis])]
      rw [batchGo_error_iff]
      constructor
      · rintro ⟨k, hk, hfail, hpre⟩
        refine .inr ⟨hmis, k, by simpa using hk, by simpa using hfail, ?_⟩
        intro j hj
        have := hpre j hj
        simpa using this
      · rintro (⟨hne, _⟩ | ⟨_, i, hi, hfail, hpre⟩)
        · exact absurd hmis hne
        · refine ⟨i, by simpa using hi, by simpa using hfail, ?_⟩
          intro j hj
          have := hpre j hj
          simpa using this
    · rw [if_pos (by simp [hmis])]
      simp [hmis, eq_comm]

/-- Witness for C8: a two-point batch of the program `x1`. -/
theorem batch_matches_scalar_eval_witness :
    executeBatch ratFuns ⟨[.loadVar 0, .ret], 1⟩ [[3, 5]] 2 = .ok [3, 5] := by
  have h := (batch_matches_scalar_eval ratFuns ⟨[.loadVar 0, .ret], 1⟩ [[3, 5]] 2
    (by intro col hcol; simp at hcol; simp [hcol])).1 [3, 5]
  refine h.mpr ⟨rfl, rfl, ?_⟩
  intro i hi
  interval_cases i <;> rfl

theorem mapM_ok_parts {E α β : Type} (f : α → Except E β) (d : β) :
    ∀ (l : List α) (out : List β), l.mapM f = .ok out →
      out.length = l.length ∧
      ∀ k, (hk : k < l.length) → f (l.get ⟨k, hk⟩) = .ok (out.getD k d) := by
  intro l
  induction l with
  | nil =>
      intro out h
      rw [List.mapM_nil] at h
      cases h
      simp
  | cons a rest ih =>
      intro out h
      rw [List.mapM_cons] at h
      rcases hfa : f a with e | b
      · rw [hfa] at h
        cases h
      · rw [hfa] at h
        rcases hml : rest.mapM f with e | bs
        · rw [hml] at h
          cases h
        · rw [hml] at h
          cases h
          rcases ih bs hml with ⟨hlen, hall⟩
          refine ⟨by simp [hlen], ?_⟩
          intro k hk
          cases k with
          | zero => simpa using hfa
          | succ k' =>
              have := hall k' (by simpa using hk)
              simpa using this

theorem flatten_getD_rows {rows : List (List ℚ)} {n : ℕ}
    (hall : ∀ r ∈ rows, r.length = n) :
    ∀ i j, (hi : i < rows.length) → j < n →
      rows.flatten.getD (i * n + j) 0 = (rows.get ⟨i, hi⟩).getD j 0 := by
  induction rows with
  | nil =>
      intro i j hi
      simp at hi
  | cons r rest ih =>
      intro i j hi hj
      have hr : r.length = n := hall r (by simp)
      cases i with
      | zero =>
          have hjr : j < r.length := by omega
          simp only [List.flatten_cons, Nat.zero_mul, Nat.zero_add, List.get_cons_zero]
          exact List.getD_append r rest.flatten 0 j hjr
      | succ i' =>
          have hidx : (i' + 1) * n + j = r.length + (i' * n + j) := by
            rw [hr]; ring
          rw [hidx]
          simp only [List.flatten_cons]
          rw [List.getD_append_right r rest.flatten 0 _ (by omega)]
          have : r.length + (i' * n + j) - r.length = i' * n + j := by omega
          rw [this]
          have := ih (fun r' hr' => hall r' (by simp [hr'])) i' j (by simpa using hi) hj
          simpa using this

/-- C7: the AD engine's Hessian (autodiff.cpp:267-309) is a forward
difference of first-order AD gradients with the hard-coded step
`1e-8`: when it succeeds, the base AD gradient succeeded, for every `i` the
AD gradient at the input with coordinate `i` perturbed by exactly
`hessianStep = 1e-8` succeeded, and entry `(i, j)` of the row-major result
is `(∇f(x + h·eᵢ)ⱼ − ∇f(x)ⱼ) / h` — each entry computed independently from
its own row's perturbation, with no symmetrization.  The step is a constant
of the engine: the FORWARD-mode Hessian entry point gives the same result
for any two programs sharing bytecode, whatever their configured FD
epsilons. -/
theorem ad_hessian_is_fd_of_gradient (F : TransFuns) (program : BytecodeProgram)
    (x H : List ℚ) (h : computeHessianAD F program x = .ok H) :
    (hessianStep = 1 / 100000000 ∧ x.length = program.numVariables ∧
      H.length = x.length * x.length) ∧
    (∃ g, computeGradient F program x = .ok g ∧
      ∀ i, i < x.length →
        ∃ gi, computeGradient F program (x.set i (x.getD i 0 + hessianStep)) = .ok gi ∧
          ∀ j, j < x.length →
            H.getD (i * x.length + j) 0 = (gi.getD j 0 - g.getD j 0) / hessianStep) ∧
    (∀ p p' : ProgramHandle, p.bytecode = program → p'.bytecode = program →
      p.adMode = .forward → p'.adMode = .forward →
      ndcalcHessian F p x = ndcalcHessian F p' x) := by
  have hmain : x.length = program.numVariables ∧ H.length = x.length * x.length ∧
      (∃ g, computeGradient F program x = .ok g ∧
        ∀ i, i < x.length →
          ∃ gi, computeGradient F program (x.set i (x.getD i 0 + hessianStep)) = .ok gi ∧
            ∀ j, j < x.length →
              H.getD (i * x.length + j) 0 = (gi.getD j 0 - g.getD j 0) / hessianStep) := by
    unfold computeHessianAD at h
    by_cases hmis : x.length = program.numVariables
    swap
    · rw [if_pos (by simp [hmis])] at h
      cases h
    rw [if_neg (by simp [hmis])] at h
    simp only [bind, Except.bind, pure, Except.pure] at h
    split at h
    · cases h
    rename_i g hg
    split at h
    · cases h
    rename_i rows hrows
    cases h
    rcases mapM_ok_parts _ [] _ _ hrows with ⟨hlen, hall⟩
    have hlen' : rows.length = x.length := by simpa using hlen
    have hrow : ∀ i, i < x.length →
        ∃ gi, computeGradient F program (x.set i (x.getD i 0 + hessianStep)) = .ok gi ∧
          rows.getD i [] = (List.range x.length).map fun j =>
            (gi.getD j 0 - g.getD j 0) / hessianStep := by
      intro i hi
      have hi' : i < (List.range x.length).length := by simpa using hi
      have hstep := hall i hi'
      have hget : (List.range x.length).get ⟨i, hi'⟩ = i := by simp
      rw [hget] at hstep
      split at hstep
      · cases hstep
      rename_i gi hgi
      exact ⟨gi, hgi, (Except.ok.inj hstep).symm⟩
    have hrowlen : ∀ r ∈ rows, r.length = x.length := by
      intro r hr
      rcases List.mem_iff_get.mp hr with ⟨⟨k, hk⟩, rfl⟩
      have hk' : k < x.length := by omega
      rcases hrow k hk' with ⟨gi, _, hrk⟩
      have hgd : rows.getD k [] = rows.get ⟨k, hk⟩ := List.getD_eq_get rows [] hk
      rw [hgd] at hrk
      rw [hrk]
      simp
    refine ⟨hmis, ?_, g, hg, ?_⟩
    · rw [List.length_flatten]
      have hmap : rows.map List.length = List.replicate rows.length x.length := by
        rw [List.eq_replicate_iff]
        refine ⟨by simp, ?_⟩
        intro a ha
        rcases List.mem_map.mp ha with ⟨r, hr, rfl⟩
        exact hrowlen r hr
      rw [hmap]
      simp [hlen']
    · intro i hi
      rcases hrow i hi with ⟨gi, hgi, hrowi⟩
      refine ⟨gi, hgi, ?_⟩
      intro j hj
      have hflat := flatten_getD_rows hrowlen i j (by omega) hj
      rw [hflat]
      have hgd : rows.get ⟨i, by omega⟩ = rows.getD i [] :=
        (List.getD_eq_get rows [] (by omega)).symm
      rw [hgd, hrowi]
      have hjr : j < ((List.range x.length).map fun j =>
          (gi.getD j 0 - g.getD j 0) / hessianStep).length := by simpa using hj
      rw [List.getD_eq_get _ _ hjr]
      simp
  refine ⟨⟨rfl, hmain.1, hmain.2.1⟩, hmain.2.2, ?_⟩
  intro p p' hb hb' hm hm'
  simp [ndcalcHessian, hm, hm', hb, hb']

/-- Witness for C7: the Hessian of `x1 * x2` at `(1, 2)`. -/
theorem ad_hessian_is_fd_of_gradient_witness :
    computeHessianAD ratFuns ⟨[.loadVar 0, .loadVar 1, .mul, .ret], 2⟩ [1, 2] =
      .ok [0, 1, 1, 0] ∧
    hessianStep = 1 / 100000000 ∧
    ([0, 1, 1, 0] : List ℚ).length = [1, 2].length * [1, 2].length := by
  have hok : computeHessianAD ratFuns ⟨[.loadVar 0, .loadVar 1, .mul, .ret], 2⟩
      ([1, 2] : List ℚ) = .ok [0, 1, 1, 0] := by with_unfolding_all rfl
  have h := ad_hessian_is_fd_of_gradient ratFuns ⟨[.loadVar 0, .loadVar 1, .mul, .ret], 2⟩
    [1, 2] [0, 1, 1, 0] hok
  exact ⟨hok, h.1.1, h.1.2.2⟩

theorem rowMajorIdx_inj {n a b a' b' : ℕ} (hb : b < n) (hb' : b' < n)
    (h : a * n + b = a' * n + b') : a = a' ∧ b = b' := by
  rcases Nat.lt_trichotomy a a' with hlt | heq | hgt
  · exfalso
    have h1 : (a + 1) * n = a * n + n := by ring
    have h2 : (a + 1) * n ≤ a' * n := mul_le_mul_right' hlt n
    omega
  · subst heq
    omega
  · exfalso
    have h1 : (a' + 1) * n = a' * n + n := by ring
    have h2 : (a' + 1) * n ≤ a * n := mul_le_mul_right' hgt n
    omega

theorem rowMajorIdx_lt {n a b : ℕ} (ha : a < n) (hb : b < n) : a * n + b < n * n := by
  have h1 : (a + 1) * n ≤ n * n := mul_le_mul_right' ha n
  have h2 : (a + 1) * n = a * n + n := by ring
  omega

theorem getD_set_self {l : List ℚ} {i : ℕ} {a : ℚ} (h : i < l.length) :
    (l.set i a).getD i 0 = a := by
  rw [List.getD_eq_getElem?_getD, List.getElem?_set_self (by simpa using h)]
  rfl

theorem getD_set_ne {l : List ℚ} {i j : ℕ} {a : ℚ} (h : i ≠ j) :
    (l.set i a).getD j 0 = l.getD j 0 := by
  rw [List.getD_eq_getElem?_getD, List.getElem?_set_ne h, ← List.getD_eq_getElem?_getD]

/-- The invariant maintained by every write `FiniteDiff::compute_hessian`
performs into its row-major output buffer: full `n × n` size and exact
symmetry of the cells. -/
def SymBuf (n : ℕ) (buf : List ℚ) : Prop :=
  buf.length = n * n ∧
  ∀ a b, a < n → b < n → buf.getD (a * n + b) 0 = buf.getD (b * n + a) 0

theorem symBuf_set_diag {n i : ℕ} (hi : i < n) {buf : List ℚ} {v : ℚ}
    (h : SymBuf n buf) : SymBuf n (buf.set (i * n + i) v) := by
  refine ⟨by simp [h.1], ?_⟩
  intro a b ha hb
  by_cases hpa : i * n + i = a * n + b
  · rcases rowMajorIdx_inj hi hb hpa with ⟨h1, h2⟩
    rw [← h1, ← h2]
  · have hqa : i * n + i ≠ b * n + a := by
      intro hq
      rcases rowMajorIdx_inj hi ha hq with ⟨h1, h2⟩
      exact hpa (by rw [← h1, ← h2])
    rw [getD_set_ne hpa, getD_set_ne hqa]
    exact h.2 a b ha hb

theorem symBuf_set_pair {n i j : ℕ} (hi : i < n) (hj : j < n) {buf : List ℚ} {v : ℚ}
    (h : SymBuf n buf) : SymBuf n ((buf.set (i * n + j) v).set (j * n + i) v) := by
  have hlen1 : (buf.set (i * n + j) v).length = n * n := by simp [h.1]
  refine ⟨by simp [h.1], ?_⟩
  intro a b ha hb
  by_cases h1 : j * n + i = a * n + b
  · rcases rowMajorIdx_inj hi hb h1 with ⟨hja, hib⟩
    have hL : ((buf.set (i * n + j) v).set (j * n + i) v).getD (a * n + b) 0 = v := by
      rw [← h1]
      exact getD_set_self (by simp only [List.length_set, h.1]; exact rowMajorIdx_lt hj hi)
    have hR : ((buf.set (i * n + j) v).set (j * n + i) v).getD (b * n + a) 0 = v := by
      have hba : b * n + a = i * n + j := by rw [← hja, ← hib]
      rw [hba]
      by_cases hQR : j * n + i = i * n + j
      · rw [← hQR]
        exact getD_set_self (by simp only [List.length_set, h.1]; exact rowMajorIdx_lt hj hi)
      · rw [getD_set_ne hQR]
        exact getD_set_self (by simp only [List.length_set, h.1]; exact rowMajorIdx_lt hi hj)
    rw [hL, hR]
  · by_cases h2 : i * n + j = a * n + b
    · rcases rowMajorIdx_inj hj hb h2 with ⟨hia, hjb⟩
      have hL : ((buf.set (i * n + j) v).set (j * n + i) v).getD (a * n + b) 0 = v := by
        rw [getD_set_ne h1, ← h2]
        exact getD_set_self (by simp only [List.length_set, h.1]; exact rowMajorIdx_lt hi hj)
      have hR : ((buf.set (i * n + j) v).set (j * n + i) v).getD (b * n + a) 0 = v := by
        have hba : b * n + a = j * n + i := by rw [← hia, ← hjb]
        rw [hba]
        exact getD_set_self (by simp only [List.length_set, h.1]; exact rowMajorIdx_lt hj hi)
      rw [hL, hR]
    · have h1' : j * n + i ≠ b * n + a := by
        intro hq
        rcases rowMajorIdx_inj hi ha hq with ⟨hjb, hia⟩
        exact h2 (by rw [← hjb, ← hia])
      have h2' : i * n + j ≠ b * n + a := by
        intro hq
        rcases rowMajorIdx_inj hj ha hq with ⟨hib, hja⟩
        exact h1 (by rw [← hib, ← hja])
      rw [getD_set_ne h1, getD_set_ne h2, getD_set_ne h1', getD_set_ne h2']
      exact h.2 a b ha hb

theorem foldlM_preserves {E : Type} {g : List ℚ → ℕ → Except E (List ℚ)}
    {P : List ℚ → Prop} {Q : ℕ → Prop}
    (hg : ∀ buf x, Q x → P buf → ∀ buf', g buf x = .ok buf' → P buf') :
    ∀ (l : List ℕ), (∀ x ∈ l, Q x) →
      ∀ {buf buf'}, P buf → l.foldlM g buf = .ok buf' → P buf' := by
  intro l
  induction l with
  | nil =>
      intro _ buf buf' hP h
      rw [List.foldlM_nil] at h
      cases h
      exact hP
  | cons x xs ih =>
      intro hl buf buf' hP h
      rw [List.foldlM_cons] at h
      simp only [bind, Except.bind] at h
      split at h
      · cases h
      · rename_i buf1 hx
        exact ih (fun y hy => hl y (List.mem_cons_of_mem x hy))
          (hg buf x (hl x (List.mem_cons_self x xs)) hP buf1 hx) h

theorem fdHessianPair_preserves (F : TransFuns) (epsilon : ℚ)
    (program : BytecodeProgram) (inputs : List ℚ) (fBase fIPlus : ℚ)
    {i j : ℕ} (hi : i < inputs.length) (hj : j < inputs.length) {buf buf' : List ℚ}
    (hbuf : SymBuf inputs.length buf)
    (h : fdHessianPair F epsilon program inputs fBase fIPlus i buf j = .ok buf') :
    SymBuf inputs.length buf' := by
  unfold fdHessianPair at h
  simp only [bind, Except.bind, pure, Except.pure] at h
  split at h
  · cases h
  split at h
  · cases h
  have hb := Except.ok.inj h
  rw [← hb]
  exact symBuf_set_pair hi hj hbuf

theorem fdHessianRow_preserves (F : TransFuns) (epsilon : ℚ)
    (program : BytecodeProgram) (inputs : List ℚ) (fBase : ℚ)
    {i : ℕ} (hi : i < inputs.length) {buf buf' : List ℚ}
    (hbuf : SymBuf inputs.length buf)
    (h : fdHessianRow F epsilon program inputs fBase buf i = .ok buf') :
    SymBuf inputs.length buf' := by
  unfold fdHessianRow at h
  simp only [bind, Except.bind, pure, Except.pure] at h
  split at h
  · cases h
  rename_i fIPlus hfp
  split at h
  · cases h
  rename_i fIMinus hfm
  refine foldlM_preserves (Q := fun j => j < inputs.length)
    (fun buf2 j hj hb2 buf3 h3 =>
      fdHessianPair_preserves F epsilon program inputs fBase fIPlus hi hj hb2 h3)
    _ ?_ (symBuf_set_diag hi hbuf) h
  intro x hx
  have : x ∈ List.range inputs.length := List.drop_subset _ _ hx
  simpa using this

/-- C9: the finite-difference Hessian (finite_diff.cpp:53-121) is exactly
symmetric by construction: whenever it succeeds, the returned row-major
matrix satisfies `H[i][j] = H[j][i]` (as exact equality of the produced
values) for all `i, j` below the input dimension, because each off-diagonal
mixed partial is computed once per unordered pair and the identical value is
written into both entries (finite_diff.cpp:112-114). -/
theorem fd_hessian_symmetric (F : TransFuns) (epsilon : ℚ)
    (program : BytecodeProgram) (x H : List ℚ)
    (h : fdHessian F epsilon program x = .ok H) :
    ∀ i j, i < x.length → j < x.length →
      H.getD (i * x.length + j) 0 = H.getD (j * x.length + i) 0 := by
  unfold fdHessian at h
  by_cases hmis : x.length = program.numVariables
  swap
  · rw [if_pos (by simp [hmis])] at h
    cases h
  rw [if_neg (by simp [hmis])] at h
  simp only [bind, Except.bind] at h
  split at h
  · cases h
  rename_i fBase hfb
  have hsym : SymBuf x.length H := by
    refine foldlM_preserves (Q := fun i => i < x.length)
      (fun buf i hi hb buf' h' =>
        fdHessianRow_preserves F epsilon program x fBase hi hb h')
      _ (by intro y hy; simpa using hy) ?_ h
    constructor
    · simp
    · intro a b _ _
      rw [List.getD_eq_getElem?_getD, List.getD_eq_getElem?_getD]
      rw [List.getElem?_getD_replicate_default_eq, List.getElem?_getD_replicate_default_eq]
  exact fun i j hi hj => hsym.2 i j hi hj

/-- Witness for C9: the FD Hessian of `x1 * x2` at `(1, 1)` with epsilon 1. -/
theorem fd_hessian_symmetric_witness :
    fdHessian ratFuns 1 ⟨[.loadVar 0, .loadVar 1, .mul, .ret], 2⟩ [1, 1] =
      .ok [0, 1, 1, 0] ∧
    ([0, 1, 1, 0] : List ℚ).getD (0 * 2 + 1) 0 = ([0, 1, 1, 0] : List ℚ).getD (1 * 2 + 0) 0 := by
  have hok : fdHessian ratFuns 1 ⟨[.loadVar 0, .loadVar 1, .mul, .ret], 2⟩
      ([1, 1] : List ℚ) = .ok [0, 1, 1, 0] := by with_unfolding_all rfl
  refine ⟨hok, ?_⟩
  exact fd_hessian_symmetric ratFuns 1 ⟨[.loadVar 0, .loadVar 1, .mul, .ret], 2⟩
    [1, 1] [0, 1, 1, 0] hok 0 1 (by simp) (by simp)

/-- C2 (code-bug demonstration): the tokenizer's number scan
(parser.cpp:24-28) absorbs a `+`/`-` at every position after the token's
first character, with no check that the preceding character is an exponent
marker.  `"1e-5"` and `"x-5"` behave as the claim says, but `"1-5"` becomes
the single NUMBER token `"1-5"` — whose `std::stod` prefix parse then
compiles to the constant 1 — instead of `-` tokenizing as an operator. -/
theorem tokenizer_absorbs_sign_after_any_digit :
    tokenize "1-5" = some [⟨.NUMBER, "1-5", 0⟩, ⟨.END, "", 3⟩] ∧
    tokenize "1e-5" = some [⟨.NUMBER, "1e-5", 0⟩, ⟨.END, "", 4⟩] ∧
    tokenize "x-5" = some [⟨.VARIABLE, "x", 0⟩, ⟨.OPERATOR, "-", 1⟩,
      ⟨.NUMBER, "5", 2⟩, ⟨.END, "", 3⟩] ∧
    (ndcalcCompile contextCreate "1-5" []).map (fun p => ndcalcEval ratFuns p []) =
      some (some 1) := by
  refine ⟨by decide, by decide, by decide, ?_⟩
  with_unfolding_all rfl

/-- C5: `^` is right-associative and unary minus binds tighter than `^`:
`"2 ^ 3 ^ 2"` compiles and evaluates to `512 = 2^(3^2)`, and `"-2 ^ 2"`
compiles and evaluates to `4 = (-2)^2` (parser.cpp:165-210). -/
theorem power_right_assoc_unary_minus_tighter :
    (ndcalcCompile contextCreate "2 ^ 3 ^ 2" []).map
        (fun p => ndcalcEval ratFuns p []) = some (some 512) ∧
    (ndcalcCompile contextCreate "-2 ^ 2" []).map
        (fun p => ndcalcEval ratFuns p []) = some (some 4) := by
  constructor
  · with_unfolding_all rfl
  · with_unfolding_all rfl

/-- C3 (counterexample): `ndcalc_set_ad_mode` mutates only the context
(api.cpp:223-227); an already-compiled program keeps the mode snapshotted by
`ndcalc_compile` (api.cpp:81).  Concretely, for `1/x1` at `x1 = 0` a program
compiled while the context was AUTO still carries AUTO and its gradient
falls back to finite differences, returning `1e16` — whereas a program
actually in FORWARD mode (as the claim says the already-compiled program
should behave after `set_mode(FORWARD)`) propagates the AD
division-by-zero failure. -/
theorem set_mode_after_compile_has_no_effect :
    (ndcalcCompile contextCreate "1/x1" ["x1"]).map
        (fun p => (p.adMode, ndcalcGradient ratFuns p [0])) =
      some (AdMode.auto, some [10 ^ 16]) ∧
    (ndcalcCompile (ndcalcSetAdMode contextCreate .forward) "1/x1" ["x1"]).map
        (fun p => ndcalcGradient ratFuns p [0]) = some none := by
  constructor
  · with_unfolding_all rfl
  · with_unfolding_all rfl

/-- C3 (amended): `ndcalc_set_ad_mode` / `ndcalc_set_fd_epsilon` update the
context, and the new settings are applied to programs at compile time
(api.cpp:80-81): a program compiled after the call carries the new mode and
epsilon, while a program compiled before keeps the mode and epsilon captured
at its own compile — changing the context between evaluation calls does not
affect an already-compiled program, whose gradient/Hessian behavior is a
function of the program handle alone. -/
theorem mode_epsilon_snapshot_at_compile (ctx : Context) (m : AdMode) (eps : ℚ)
    (expression : String) (names : List String) :
    (ndcalcSetAdMode ctx m).adMode = m ∧
    (ndcalcSetFdEpsilon ctx eps).fdEpsilon = eps ∧
    (∀ p, ndcalcCompile ctx expression names = some p →
      p.adMode = ctx.adMode ∧ p.fdEpsilon = ctx.fdEpsilon) ∧
    (∀ p, ndcalcCompile ctx expression names = some p →
      ndcalcCompile (ndcalcSetAdMode ctx m) expression names =
        some ⟨p.bytecode, m, ctx.fdEpsilon⟩ ∧
      ndcalcCompile (ndcalcSetFdEpsilon ctx eps) expression names =
        some ⟨p.bytecode, ctx.adMode, eps⟩) := by
  refine ⟨rfl, rfl, ?_, ?_⟩
  · intro p hp
    unfold ndcalcCompile at hp
    split at hp
    · cases hp
    split at hp
    · cases hp
    cases hp
    exact ⟨rfl, rfl⟩
  · intro p hp
    unfold ndcalcCompile at hp
    split at hp
    · cases hp
    rename_i ast hast
    split at hp
    · cases hp
    rename_i bc hbc
    cases hp
    constructor
    · unfold ndcalcCompile
      simp only [hast, hbc]
      rfl
    · unfold ndcalcCompile
      simp only [hast, hbc]
      rfl

/-- Witness for the amended C3 at the program `x1`. -/
theorem mode_epsilon_snapshot_at_compile_witness :
    ndcalcCompile (ndcalcSetAdMode contextCreate .forward) "x1" ["x1"] =
      some ⟨⟨[.loadVar 0, .ret], 1⟩, .forward, contextCreate.fdEpsilon⟩ := by
  have h := (mode_epsilon_snapshot_at_compile contextCreate .forward 1 "x1" ["x1"]).2.2.2
    ⟨⟨[.loadVar 0, .ret], 1⟩, .auto, 1 / 100000000⟩ (by with_unfolding_all rfl)
  exact h.1

/-- Proof infrastructure for C1/C10: a code fragment `code` (as emitted for
one AST node) either pushes exactly one value onto any stack whatever
follows it, or fails with one of the three domain errors. -/
def PushesOne (F : TransFuns) (inputs : List ℚ) (code : List Instr) : Prop :=
  ∀ (k : List Instr) (st : List ℚ),
    (∃ v, execGo F inputs (code ++ k) st = execGo F inputs k (v :: st)) ∨
    (∃ e, (e = EvalError.divisionByZero ∨ e = EvalError.logNonPositive ∨
           e = EvalError.sqrtNegative) ∧ execGo F inputs (code ++ k) st = .error e)

theorem pushesOne_single_const (F : TransFuns) (inputs : List ℚ) (q : ℚ) :
    PushesOne F inputs [.pushConst q] := by
  intro k st
  exact .inl ⟨q, rfl⟩

theorem pushesOne_single_load (F : TransFuns) (inputs : List ℚ) {idx : ℕ}
    (h : idx < inputs.length) : PushesOne F inputs [.loadVar idx] := by
  intro k st
  refine .inl ⟨inputs.get ⟨idx, h⟩, ?_⟩
  simp [execGo, stepInstr, h]

theorem pushesOne_binop_tail (F : TransFuns) (inputs : List ℚ) {op : Instr}
    (hop : op = .add ∨ op = .sub ∨ op = .mul ∨ op = .div ∨ op = .pow)
    (k : List Instr) (st : List ℚ) (vl vr : ℚ) :
    (∃ v, execGo F inputs (op :: k) (vr :: vl :: st) = execGo F inputs k (v :: st)) ∨
    (∃ e, (e = EvalError.divisionByZero ∨ e = EvalError.logNonPositive ∨
           e = EvalError.sqrtNegative) ∧
      execGo F inputs (op :: k) (vr :: vl :: st) = .error e) := by
  rcases hop with rfl | rfl | rfl | rfl | rfl
  · exact .inl ⟨vl + vr, rfl⟩
  · exact .inl ⟨vl - vr, rfl⟩
  · exact .inl ⟨vl * vr, rfl⟩
  · by_cases hz : vr = 0
    · refine .inr ⟨.divisionByZero, by simp, ?_⟩
      simp [execGo, stepInstr, hz]
    · refine .inl ⟨vl / vr, ?_⟩
      simp [execGo, stepInstr, hz]
  · exact .inl ⟨F.pow vl vr, rfl⟩

theorem pushesOne_unop_tail (F : TransFuns) (inputs : List ℚ) {op : Instr}
    (hop : op = .neg ∨ op = .sin ∨ op = .cos ∨ op = .tan ∨ op = .exp ∨
           op = .abs ∨ op = .log ∨ op = .sqrt)
    (k : List Instr) (st : List ℚ) (v : ℚ) :
    (∃ w, execGo F inputs (op :: k) (v :: st) = execGo F inputs k (w :: st)) ∨
    (∃ e, (e = EvalError.divisionByZero ∨ e = EvalError.logNonPositive ∨
           e = EvalError.sqrtNegative) ∧
      execGo F inputs (op :: k) (v :: st) = .error e) := by
  rcases hop with rfl | rfl | rfl | rfl | rfl | rfl | rfl | rfl
  · exact .inl ⟨-v, rfl⟩
  · exact .inl ⟨F.sin v, rfl⟩
  · exact .inl ⟨F.cos v, rfl⟩
  · exact .inl ⟨F.tan v, rfl⟩
  · exact .inl ⟨F.exp v, rfl⟩
  · exact .inl ⟨|v|, rfl⟩
  · by_cases hz : v ≤ 0
    · refine .inr ⟨.logNonPositive, by simp, ?_⟩
      simp [execGo, stepInstr, hz]
    · refine .inl ⟨F.log v, ?_⟩
      simp [execGo, stepInstr, hz]
  · by_cases hz : v < 0
    · refine .inr ⟨.sqrtNegative, by simp, ?_⟩
      simp [execGo, stepInstr, hz]
    · refine .inl ⟨F.sqrt v, ?_⟩
      simp [execGo, stepInstr, hz]

theorem pushesOne_seq_bin (F : TransFuns) (inputs : List ℚ) {c1 c2 : List Instr}
    {op : Instr}
    (hop : op = .add ∨ op = .sub ∨ op = .mul ∨ op = .div ∨ op = .pow)
    (h1 : PushesOne F inputs c1) (h2 : PushesOne F inputs c2) :
    PushesOne F inputs (c1 ++ c2 ++ [op]) := by
  intro k st
  have hassoc : (c1 ++ c2 ++ [op]) ++ k = c1 ++ (c2 ++ ([op] ++ k)) := by
    simp [List.append_assoc]
  rw [hassoc]
  rcases h1 (c2 ++ ([op] ++ k)) st with ⟨vl, hvl⟩ | ⟨e, he, herr⟩
  · rw [hvl]
    rcases h2 ([op] ++ k) (vl :: st) with ⟨vr, hvr⟩ | ⟨e, he, herr⟩
    · rw [hvr]
      exact pushesOne_binop_tail F inputs hop k st vl vr
    · exact .inr ⟨e, he, herr⟩
  · exact .inr ⟨e, he, herr⟩

theorem pushesOne_seq_un (F : TransFuns) (inputs : List ℚ) {c1 : List Instr}
    {op : Instr}
    (hop : op = .neg ∨ op = .sin ∨ op = .cos ∨ op = .tan ∨ op = .exp ∨
           op = .abs ∨ op = .log ∨ op = .sqrt)
    (h1 : PushesOne F inputs c1) : PushesOne F inputs (c1 ++ [op]) := by
  intro k st
  have hassoc : (c1 ++ [op]) ++ k = c1 ++ ([op] ++ k) := by
    simp [List.append_assoc]
  rw [hassoc]
  rcases h1 ([op] ++ k) st with ⟨v, hv⟩ | ⟨e, he, herr⟩
  · rw [hv]
    exact pushesOne_unop_tail F inputs hop k st v
  · exact .inr ⟨e, he, herr⟩

theorem notRet_vars_append3 {c1 c2 : List Instr} {op : Instr} {n : ℕ}
    (h1r : Instr.ret ∉ c1) (h1v : ∀ k, Instr.loadVar k ∈ c1 → k < n)
    (h2r : Instr.ret ∉ c2) (h2v : ∀ k, Instr.loadVar k ∈ c2 → k < n)
    (hopr : op ≠ Instr.ret) (hopv : ∀ k, op ≠ Instr.loadVar k) :
    Instr.ret ∉ c1 ++ c2 ++ [op] ∧
    ∀ k, Instr.loadVar k ∈ c1 ++ c2 ++ [op] → k < n := by
  constructor
  · intro hmem
    simp only [List.mem_append, List.mem_singleton] at hmem
    rcases hmem with (h | h) | h
    · exact h1r h
    · exact h2r h
    · exact hopr h.symm
  · intro k hmem
    simp only [List.mem_append, List.mem_singleton] at hmem
    rcases hmem with (h | h) | h
    · exact h1v k h
    · exact h2v k h
    · exact absurd h.symm (hopv k)

theorem notRet_vars_append2 {c1 : List Instr} {op : Instr} {n : ℕ}
    (h1r : Instr.ret ∉ c1) (h1v : ∀ k, Instr.loadVar k ∈ c1 → k < n)
    (hopr : op ≠ Instr.ret) (hopv : ∀ k, op ≠ Instr.loadVar k) :
    Instr.ret ∉ c1 ++ [op] ∧ ∀ k, Instr.loadVar k ∈ c1 ++ [op] → k < n := by
  constructor
  · intro hmem
    simp only [List.mem_append, List.mem_singleton] at hmem
    rcases hmem with h | h
    · exact h1r h
    · exact hopr h.symm
  · intro k hmem
    simp only [List.mem_append, List.mem_singleton] at hmem
    rcases hmem with h | h
    · exact h1v k h
    · exact absurd h.symm (hopv k)

set_option maxHeartbeats 3200000 in
/-- The per-node emission contract of `Compiler::compile_node`
(compiler.cpp:24-135): successfully compiled node code never contains
RETURN, only references variable indices the tree references, and — run on
any stack — either pushes exactly one value or stops with one of the three
domain errors. -/
theorem compileNode_good (t : ASTNode) : ∀ (code : List Instr),
    compileNode t = .ok code → ∀ (n : ℕ), AllVarsBelow n t →
    (Instr.ret ∉ code ∧ (∀ k, Instr.loadVar k ∈ code → k < n)) ∧
    (∀ (F : TransFuns) (inputs : List ℚ), inputs.length = n →
      PushesOne F inputs code) := by
  induction t using compileNode.induct with
  | case1 s children q hq =>
      intro code hc n hv
      simp only [compileNode, hq] at hc
      cases hc
      refine ⟨⟨by simp, by simp⟩, ?_⟩
      intro F inputs hlen
      exact pushesOne_single_const F inputs q
  | case2 s children hq =>
      intro code hc n hv
      simp only [compileNode, hq] at hc
      cases hc
  | case3 m children =>
      intro code hc n hv
      simp only [compileNode] at hc
      cases hc
      refine ⟨⟨by simp, by simp⟩, ?_⟩
      intro F inputs hlen
      exact pushesOne_single_const F inputs m
  | case4 m children =>
      intro code hc n hv
      simp only [compileNode] at hc
      cases hc
      have hm : m < n := by
        cases hv with
        | node _ _ _ hvv _ => exact hvv m rfl rfl
      refine ⟨⟨by simp, by simp; omega⟩, ?_⟩
      intro F inputs hlen
      exact pushesOne_single_load F inputs (by omega)
  | case5 s children =>
      intro code hc n hv
      simp only [compileNode] at hc
      cases hc
  | case6 v l r ihl ihr =>
      intro code hc n hv
      have hvl : AllVarsBelow n l := by
        cases hv with
        | node _ _ _ _ hcs => exact hcs l (by simp)
      have hvr : AllVarsBelow n r := by
        cases hv with
        | node _ _ _ _ hcs => exact hcs r (by simp)
      simp only [compileNode, bind, Except.bind] at hc
      split at hc
      · cases hc
      rename_i cl hcl
      split at hc
      · cases hc
      rename_i cr hcr
      rcases ihl cl hcl n hvl with ⟨⟨hretl, hvarl⟩, hpushl⟩
      rcases ihr cr hcr n hvr with ⟨⟨hretr, hvarr⟩, hpushr⟩
      split at hc <;> cases hc <;>
        exact ⟨notRet_vars_append3 hretl hvarl hretr hvarr (by simp) (by intro k; simp),
          fun F inputs hlen =>
            pushesOne_seq_bin F inputs (by simp) (hpushl F inputs hlen)
              (hpushr F inputs hlen)⟩
  | case7 val children hne =>
      intro code hc n hv
      rcases children with _ | ⟨c1, _ | ⟨c2, _ | ⟨c3, rest⟩⟩⟩
      · simp only [compileNode] at hc
        cases hc
      · simp only [compileNode] at hc
        cases hc
      · exact (hne c1 c2 rfl).elim
      · simp only [compileNode] at hc
        cases hc
  | case8 v c ihc =>
      intro code hc n hv
      have hvc : AllVarsBelow n c := by
        cases hv with
        | node _ _ _ _ hcs => exact hcs c (by simp)
      simp only [compileNode, bind, Except.bind] at hc
      split at hc
      · cases hc
      rename_i cc hcc
      rcases ihc cc hcc n hvc with ⟨⟨hret, hvars⟩, hpush⟩
      split at hc <;> cases hc
      exact ⟨notRet_vars_append2 hret hvars (by simp) (by intro k; simp),
        fun F inputs hlen =>
          pushesOne_seq_un F inputs (by simp) (hpush F inputs hlen)⟩
  | case9 val children hne =>
      intro code hc n hv
      rcases children with _ | ⟨c1, _ | ⟨c2, rest⟩⟩
      · simp only [compileNode] at hc
        cases hc
      · exact (hne c1 rfl).elim
      · simp only [compileNode] at hc
        cases hc
  | case10 a iha =>
      intro code hc n hv
      have hva : AllVarsBelow n a := by
        cases hv with
        | node _ _ _ _ hcs => exact hcs a (by simp)
      simp only [compileNode, bind, Except.bind] at hc
      split at hc
      · cases hc
      rename_i ca hca
      cases hc
      rcases iha ca hca n hva with ⟨⟨hret, hvars⟩, hpush⟩
      exact ⟨notRet_vars_append2 hret hvars (by simp) (by intro k; simp),
        fun F inputs hlen =>
          pushesOne_seq_un F inputs (by simp) (hpush F inputs hlen)⟩
  | case11 children hne =>
      intro code hc n hv
      rcases children with _ | ⟨c1, _ | ⟨c2, rest⟩⟩
      · simp only [compileNode] at hc
        cases hc
      · exact (hne c1 rfl).elim
      · simp only [compileNode] at hc
        cases hc
  | case12 a iha =>
      intro code hc n hv
      have hva : AllVarsBelow n a := by
        cases hv with
        | node _ _ _ _ hcs => exact hcs a (by simp)
      simp only [compileNode, bind, Except.bind] at hc
      split at hc
      · cases hc
      rename_i ca hca
      cases hc
      rcases iha ca hca n hva with ⟨⟨hret, hvars⟩, hpush⟩
      exact ⟨notRet_vars_append2 hret hvars (by simp) (by intro k; simp),
        fun F inputs hlen =>
          pushesOne_seq_un F inputs (by simp) (hpush F inputs hlen)⟩
  | case13 children hne =>
      intro code hc n hv
      rcases children with _ | ⟨c1, _ | ⟨c2, rest⟩⟩
      · simp only [compileNode] at hc
        cases hc
      · exact (hne c1 rfl).elim
      · simp only [compileNode] at hc
        cases hc
  | case14 a iha =>
      intro code hc n hv
      have hva : AllVarsBelow n a := by
        cases hv with
        | node _ _ _ _ hcs => exact hcs a (by simp)
      simp only [compileNode, bind, Except.bind] at hc
      split at hc
      · cases hc
      rename_i ca hca
      cases hc
      rcases iha ca hca n hva with ⟨⟨hret, hvars⟩, hpush⟩
      exact ⟨notRet_vars_append2 hret hvars (by simp) (by intro k; simp),
        fun F inputs hlen =>
          pushesOne_seq_un F inputs (by simp) (hpush F inputs hlen)⟩
  | case15 children hne =>
      intro code hc n hv
      rcases children with _ | ⟨c1, _ | ⟨c2, rest⟩⟩
      · simp only [compileNode] at hc
        cases hc
      · exact (hne c1 rfl).elim
      · simp only [compileNode] at hc
        cases hc
  | case16 a iha =>
      intro code hc n hv
      have hva : AllVarsBelow n a := by
        cases hv with
        | node _ _ _ _ hcs => exact hcs a (by simp)
      simp only [compileNode, bind, Except.bind] at hc
      split at hc
      · cases hc
      rename_i ca hca
      cases hc
      rcases iha ca hca n hva with ⟨⟨hret, hvars⟩, hpush⟩
      exact ⟨notRet_vars_append2 hret hvars (by simp) (by intro k; simp),
        fun F inputs hlen =>
          pushesOne_seq_un F inputs (by simp) (hpush F inputs hlen)⟩
  | case17 children hne =>
      intro code hc n hv
      rcases children with _ | ⟨c1, _ | ⟨c2, rest⟩⟩
      · simp only [compileNode] at hc
        cases hc
      · exact (hne c1 rfl).elim
      · simp only [compileNode] at hc
        cases hc
  | case18 a iha =>
      intro code hc n hv
      have hva : AllVarsBelow n a := by
        cases hv with
        | node _ _ _ _ hcs => exact hcs a (by simp)
      simp only [compileNode, bind, Except.bind] at hc
      split at hc
      · cases hc
      rename_i ca hca
      cases hc
      rcases iha ca hca n hva with ⟨⟨hret, hvars⟩, hpush⟩
      exact ⟨notRet_vars_append2 hret hvars (by simp) (by intro k; simp),
        fun F inputs hlen =>
          pushesOne_seq_un F inputs (by simp) (hpush F inputs hlen)⟩
  | case19 children hne =>
      intro code hc n hv
      rcases children with _ | ⟨c1, _ | ⟨c2, rest⟩⟩
      · simp only [compileNode] at hc
        cases hc
      · exact (hne c1 rfl).elim
      · simp only [compileNode] at hc
        cases hc
  | case20 a iha =>
      intro code hc n hv
      have hva : AllVarsBelow n a := by
        cases hv with
        | node _ _ _ _ hcs => exact hcs a (by simp)
      simp only [compileNode, bind, Except.bind] at hc
      split at hc
      · cases hc
      rename_i ca hca
      cases hc
      rcases iha ca hca n hva with ⟨⟨hret, hvars⟩, hpush⟩
      exact ⟨notRet_vars_append2 hret hvars (by simp) (by intro k; simp),
        fun F inputs hlen =>
          pushesOne_seq_un F inputs (by simp) (hpush F inputs hlen)⟩
  | case21 children hne =>
      intro code hc n hv
      rcases children with _ | ⟨c1, _ | ⟨c2, rest⟩⟩
      · simp only [compileNode] at hc
        cases hc
      · exact (hne c1 rfl).elim
      · simp only [compileNode] at hc
        cases hc
  | case22 a iha =>
      intro code hc n hv
      have hva : AllVarsBelow n a := by
        cases hv with
        | node _ _ _ _ hcs => exact hcs a (by simp)
      simp only [compileNode, bind, Except.bind] at hc
      split at hc
      · cases hc
      rename_i ca hca
      cases hc
      rcases iha ca hca n hva with ⟨⟨hret, hvars⟩, hpush⟩
      exact ⟨notRet_vars_append2 hret hvars (by simp) (by intro k; simp),
        fun F inputs hlen =>
          pushesOne_seq_un F inputs (by simp) (hpush F inputs hlen)⟩
  | case23 children hne =>
      intro code hc n hv
      rcases children with _ | ⟨c1, _ | ⟨c2, rest⟩⟩
      · simp only [compileNode] at hc
        cases hc
      · exact (hne c1 rfl).elim
      · simp only [compileNode] at hc
        cases hc
  | case24 a b iha ihb =>
      intro code hc n hv
      have hva : AllVarsBelow n a := by
        cases hv with
        | node _ _ _ _ hcs => exact hcs a (by simp)
      have hvb : AllVarsBelow n b := by
        cases hv with
        | node _ _ _ _ hcs => exact hcs b (by simp)
      simp only [compileNode, bind, Except.bind] at hc
      split at hc
      · cases hc
      rename_i ca hca
      split at hc
      · cases hc
      rename_i cb hcb
      cases hc
      rcases iha ca hca n hva with ⟨⟨hreta, hvara⟩, hpusha⟩
      rcases ihb cb hcb n hvb with ⟨⟨hretb, hvarb⟩, hpushb⟩
      exact ⟨notRet_vars_append3 hreta hvara hretb hvarb (by simp) (by intro k; simp),
        fun F inputs hlen =>
          pushesOne_seq_bin F inputs (by simp) (hpusha F inputs hlen)
            (hpushb F inputs hlen)⟩
  | case25 children hne =>
      intro code hc n hv
      rcases children with _ | ⟨c1, _ | ⟨c2, _ | ⟨c3, rest⟩⟩⟩
      · simp only [compileNode] at hc
        cases hc
      · simp only [compileNode] at hc
        cases hc
      · exact (hne c1 c2 rfl).elim
      · simp only [compileNode] at hc
        cases hc
  | case26 val children h1 h2 h3 h4 =>
      intro code hc n hv
      rcases children with _ | ⟨c1, _ | ⟨c2, _ | ⟨c3, rest⟩⟩⟩ <;>
        first
          | (simp only [compileNode] at hc
             · cases hc)
          | skip
      all_goals cases hc

/-- Every AST `Parser::parse` returns resolves its variables against the
caller's list, so all indices are below the list's length
(parser.cpp:221-231); the invariant is carried by the parser's result
type. -/
theorem parse_allVarsBelow {expression : String} {names : List String} {ast : ASTNode}
    (h : parse expression names = some ast) : AllVarsBelow names.length ast := by
  unfold parse at h
  split at h
  · cases h
  rename_i toks htoks
  split at h
  · cases h
  rename_i p hp
  split at h
  · rename_i t rest2 heq
    split at h
    · cases h
      exact p.hv
    · cases h
  · cases h

theorem execGo_no_oob (F : TransFuns) (inputs : List ℚ) :
    ∀ (code : List Instr) (st : List ℚ),
      (∀ k, Instr.loadVar k ∈ code → k < inputs.length) →
      execGo F inputs code st ≠ .error .varIndexOutOfBounds := by
  intro code
  induction code with
  | nil =>
      intro st h
      simp [execGo]
  | cons i rest ih =>
      intro st hbound
      have htail : ∀ k, Instr.loadVar k ∈ rest → k < inputs.length := by
        intro k hk
        exact hbound k (by simp [hk])
      cases i with
      | pushConst v => exact ih (v :: st) htail
      | loadVar idx =>
          have hidx : idx < inputs.length := hbound idx (by simp)
          simp only [execGo, stepInstr, hidx, dif_pos]
          exact ih _ htail
      | ret => rcases st with _ | ⟨v, _ | _⟩ <;> simp [execGo]
      | add =>
          rcases st with _ | ⟨b, _ | ⟨a, st'⟩⟩ <;> simp [execGo, stepInstr]
          exact ih _ htail
      | sub =>
          rcases st with _ | ⟨b, _ | ⟨a, st'⟩⟩ <;> simp [execGo, stepInstr]
          exact ih _ htail
      | mul =>
          rcases st with _ | ⟨b, _ | ⟨a, st'⟩⟩ <;> simp [execGo, stepInstr]
          exact ih _ htail
      | div =>
          rcases st with _ | ⟨b, _ | ⟨a, st'⟩⟩ <;> simp [execGo, stepInstr]
          by_cases hz : b = 0 <;> simp [hz]
          exact ih _ htail
      | pow =>
          rcases st with _ | ⟨b, _ | ⟨a, st'⟩⟩ <;> simp [execGo, stepInstr]
          exact ih _ htail
      | neg =>
          rcases st with _ | ⟨v, st'⟩ <;> simp [execGo, stepInstr]
          exact ih _ htail
      | sin =>
          rcases st with _ | ⟨v, st'⟩ <;> simp [execGo, stepInstr]
          exact ih _ htail
      | cos =>
          rcases st with _ | ⟨v, st'⟩ <;> simp [execGo, stepInstr]
          exact ih _ htail
      | tan =>
          rcases st with _ | ⟨v, st'⟩ <;> simp [execGo, stepInstr]
          exact ih _ htail
      | exp =>
          rcases st with _ | ⟨v, st'⟩ <;> simp [execGo, stepInstr]
          exact ih _ htail
      | log =>
          rcases st with _ | ⟨v, st'⟩ <;> simp [execGo, stepInstr]
          by_cases hz : v ≤ 0 <;> simp [hz]
          exact ih _ htail
      | sqrt =>
          rcases st with _ | ⟨v, st'⟩ <;> simp [execGo, stepInstr]
          by_cases hz : v < 0 <;> simp [hz]
          exact ih _ htail
      | abs =>
          rcases st with _ | ⟨v, st'⟩ <;> simp [execGo, stepInstr]
          exact ih _ htail

theorem execDualGo_no_oob (F : TransFuns) (inputs : List Dual) :
    ∀ (code : List Instr) (st : List Dual),
      (∀ k, Instr.loadVar k ∈ code → k < inputs.length) →
      execDualGo F inputs code st ≠ .error .varIndexOutOfBounds := by
  intro code
  induction code with
  | nil =>
      intro st h
      simp [execDualGo]
  | cons i rest ih =>
      intro st hbound
      have htail : ∀ k, Instr.loadVar k ∈ rest → k < inputs.length := by
        intro k hk
        exact hbound k (by simp [hk])
      cases i with
      | pushConst v => exact ih (⟨v, 0⟩ :: st) htail
      | loadVar idx =>
          have hidx : idx < inputs.length := hbound idx (by simp)
          simp only [execDualGo, stepDual, hidx, dif_pos]
          exact ih _ htail
      | ret => rcases st with _ | ⟨v, _ | _⟩ <;> simp [execDualGo]
      | add =>
          rcases st with _ | ⟨b, _ | ⟨a, st'⟩⟩ <;> simp [execDualGo, stepDual]
          exact ih _ htail
      | sub =>
          rcases st with _ | ⟨b, _ | ⟨a, st'⟩⟩ <;> simp [execDualGo, stepDual]
          exact ih _ htail
      | mul =>
          rcases st with _ | ⟨b, _ | ⟨a, st'⟩⟩ <;> simp [execDualGo, stepDual]
          exact ih _ htail
      | div =>
          rcases st with _ | ⟨b, _ | ⟨a, st'⟩⟩ <;> simp [execDualGo, stepDual]
          by_cases hz : b.value = 0 <;> simp [hz]
          exact ih _ htail
      | pow =>
          rcases st with _ | ⟨b, _ | ⟨a, st'⟩⟩ <;> simp [execDualGo, stepDual]
          exact ih _ htail
      | neg =>
          rcases st with _ | ⟨v, st'⟩ <;> simp [execDualGo, stepDual]
          exact ih _ htail
      | sin =>
          rcases st with _ | ⟨v, st'⟩ <;> simp [execDualGo, stepDual]
          exact ih _ htail
      | cos =>
          rcases st with _ | ⟨v, st'⟩ <;> simp [execDualGo, stepDual]
          exact ih _ htail
      | tan =>
          rcases st with _ | ⟨v, st'⟩ <;> simp [execDualGo, stepDual]
          exact ih _ htail
      | exp =>
          rcases st with _ | ⟨v, st'⟩ <;> simp [execDualGo, stepDual]
          exact ih _ htail
      | log =>
          rcases st with _ | ⟨v, st'⟩ <;> simp [execDualGo, stepDual]
          by_cases hz : v.value ≤ 0 <;> simp [hz]
          exact ih _ htail
      | sqrt =>
          rcases st with _ | ⟨v, st'⟩ <;> simp [execDualGo, stepDual]
          by_cases hz : v.value < 0 <;> simp [hz]
          exact ih _ htail
      | abs =>
          rcases st with _ | ⟨v, st'⟩ <;> simp [execDualGo, stepDual]
          exact ih _ htail

/-- C1 (counterexample to the claim as stated): the parser accepts
`sin(1,2)` — function arity is not checked at parse time
(parser.cpp:244-261) — but compilation of the accepted AST fails
(compiler.cpp:81-83), so "for every AST the parser accepts, compilation
succeeds" is false. -/
theorem parser_accepts_but_compiler_rejects_arity :
    (parse "sin(1,2)" []).map compile =
      some (.error "sin() requires exactly 1 argument") := by
  with_unfolding_all rfl

/-- C1 (amended): for every expression the parser accepts **and the
compiler accepts** (via `ndcalc_compile`), the produced bytecode ends in its
only RETURN instruction, and executing it on an input vector of the
declared length either fails with one of the three explicit domain errors
(division by zero, log of a non-positive value, sqrt of a negative value)
or reaches RETURN with exactly one value on the evaluation stack — the
stack-underflow, invalid-stack-size-at-return, missing-return and
variable-index error branches are unreachable. -/
theorem compiled_program_executes_safely (F : TransFuns) (ctx : Context)
    (expression : String) (names : List String) (p : ProgramHandle) (inputs : List ℚ)
    (hc : ndcalcCompile ctx expression names = some p)
    (hlen : inputs.length = names.length) :
    (p.bytecode.instructions.count .ret = 1 ∧
     p.bytecode.instructions.getLast? = some .ret) ∧
    ((∃ v, execute F p.bytecode inputs = .ok v) ∨
     (∃ e, (e = EvalError.divisionByZero ∨ e = EvalError.logNonPositive ∨
            e = EvalError.sqrtNegative) ∧ execute F p.bytecode inputs = .error e)) := by
  unfold ndcalcCompile at hc
  split at hc
  · cases hc
  rename_i ast hast
  split at hc
  · cases hc
  rename_i bc hbc
  cases hc
  unfold compile at hbc
  split at hbc
  swap
  · cases hbc
  rename_i code hcode
  cases hbc
  have hv := parse_allVarsBelow hast
  rcases compileNode_good ast code hcode names.length hv with ⟨⟨hret, hvars⟩, hpush⟩
  constructor
  · constructor
    · simp only [List.count_append]
      rw [List.count_eq_zero.mpr hret]
      simp
    · exact List.getLast?_concat _
  · have hexec : execute F ⟨code ++ [.ret], names.length⟩ inputs =
        execGo F inputs (code ++ [.ret]) [] := by
      unfold execute
      rw [if_neg (by simp [hlen])]
    rcases hpush F inputs hlen [.ret] [] with ⟨v, hv'⟩ | ⟨e, he, herr⟩
    · exact .inl ⟨v, by rw [hexec, hv']; rfl⟩
    · exact .inr ⟨e, he, by rw [hexec, herr]⟩

/-- Witness for the amended C1: the program `1/x1` at `x1 = 3`. -/
theorem compiled_program_executes_safely_witness :
    ((⟨⟨[.pushConst 1, .loadVar 0, .div, .ret], 1⟩, .auto,
        1 / 100000000⟩ : ProgramHandle).bytecode.instructions.count Instr.ret = 1) ∧
    ((∃ v, execute ratFuns (⟨⟨[.pushConst 1, .loadVar 0, .div, .ret], 1⟩, .auto,
        1 / 100000000⟩ : ProgramHandle).bytecode [3] = .ok v) ∨
     (∃ e, (e = EvalError.divisionByZero ∨ e = EvalError.logNonPositive ∨
            e = EvalError.sqrtNegative) ∧
        execute ratFuns (⟨⟨[.pushConst 1, .loadVar 0, .div, .ret], 1⟩, .auto,
          1 / 100000000⟩ : ProgramHandle).bytecode [3] = .error e)) := by
  have h := compiled_program_executes_safely ratFuns contextCreate "1/x1" ["x1"]
    ⟨⟨[.pushConst 1, .loadVar 0, .div, .ret], 1⟩, .auto, 1 / 100000000⟩ [3]
    (by with_unfolding_all rfl) (by simp)
  exact ⟨h.1.1, h.2⟩

/-- C10: every program produced by a successful `ndcalc_compile` with `n`
variable names carries only LOAD_VAR indices strictly below `n` (the parser
resolves names against the caller's list and the API declares the count,
api.cpp:75), so with an input vector of length `n` neither the VM
(vm.cpp:31-34) nor the AD engine (autodiff.cpp:74-77) can reach the
"Variable index out of bounds" branch. -/
theorem loadvar_indices_in_bounds (F : TransFuns) (ctx : Context)
    (expression : String) (names : List String) (p : ProgramHandle)
    (hc : ndcalcCompile ctx expression names = some p) :
    (∀ k, Instr.loadVar k ∈ p.bytecode.instructions → k < names.length) ∧
    (∀ inputs : List ℚ, inputs.length = names.length →
      execute F p.bytecode inputs ≠ .error .varIndexOutOfBounds) ∧
    (∀ dinputs : List Dual, dinputs.length = names.length →
      executeDual F p.bytecode dinputs ≠ .error .varIndexOutOfBounds) := by
  unfold ndcalcCompile at hc
  split at hc
  · cases hc
  rename_i ast hast
  split at hc
  · cases hc
  rename_i bc hbc
  cases hc
  unfold compile at hbc
  split at hbc
  swap
  · cases hbc
  rename_i code hcode
  cases hbc
  have hv := parse_allVarsBelow hast
  rcases compileNode_good ast code hcode names.length hv with ⟨⟨hret, hvars⟩, _⟩
  have hbound : ∀ k, Instr.loadVar k ∈ code ++ [Instr.ret] → k < names.length := by
    intro k hk
    simp only [List.mem_append, List.mem_singleton] at hk
    rcases hk with hk | hk
    · exact hvars k hk
    · cases hk
  refine ⟨hbound, ?_, ?_⟩
  · intro inputs hlen
    unfold execute
    rw [if_neg (by simp [hlen])]
    exact execGo_no_oob F inputs _ [] (by rw [hlen]; exact hbound)
  · intro dinputs hlen
    unfold executeDual
    rw [if_neg (by simp [hlen])]
    exact execDualGo_no_oob F dinputs _ [] (by rw [hlen]; exact hbound)

/-- Witness for C10: the program `1/x1`. -/
theorem loadvar_indices_in_bounds_witness :
    execute ratFuns (⟨⟨[.pushConst 1, .loadVar 0, .div, .ret], 1⟩, .auto,
        1 / 100000000⟩ : ProgramHandle).bytecode [5] ≠
      .error .varIndexOutOfBounds := by
  have h := loadvar_indices_in_bounds ratFuns contextCreate "1/x1" ["x1"]
    ⟨⟨[.pushConst 1, .loadVar 0, .div, .ret], 1⟩, .auto, 1 / 100000000⟩
    (by with_unfolding_all rfl)
  exact h.2.1 [5] (by simp)

end NDCalc
